import Mathlib

set_option maxHeartbeats 1000000
set_option maxRecDepth 4000

/-!
Verification development for the `ReduceArrayLiterals` optimization pass
(`opt/reduce-array-literals/ReduceArrayLiterals.cpp`).

The development shallowly embeds the pass's two stages:
  * the dataflow analyzer's transfer function (`analyze_instruction`) over the
    tracked-value domain (`TrackedValue`, `TrackedDomain`) together with the
    escaped-constructions accumulator (`EscapedMap`), and
  * the rewrite engine (`gate_decision`, `patch_candidate`, `patch_new_array`,
    `patch_new_array_chunk`) over a linear list-of-instructions view of the CFG.

The generic fixpoint-iteration driver and the CFG data structure are external
collaborators of the pass (they live outside the analyzed sources); accordingly
programs are modelled as straight-line instruction lists, which is exactly the
view on which the transfer function, the result extractor and the rewrite
engine operate.  `always_assert` failures in the source are modelled by
`Option`-valued functions returning `none`.
-/

/-- Dex types, as consumed by the pass through the type-system query surface
(`is_primitive`, `is_wide_type`, `is_array`, `get_array_component_type`,
`get_int_type`).  Modelled from the spec: the type-system queries are an
external collaborator of the pass ("is this type primitive / wide / itself an
array," "component type of an array type"); the eight Java primitive types,
class (object) types and array types. -/
inductive DexType where
  | booleanT
  | byteT
  | charT
  | shortT
  | intT
  | longT
  | floatT
  | doubleT
  | object (name : Nat)
  | array (component : DexType)
deriving DecidableEq, Repr

/-- A type is primitive iff it is neither a class type nor an array type. -/
def is_primitive : DexType → Bool
  | .object _ => false
  | .array _ => false
  | _ => true

/-- Wide (64-bit) primitive types: long and double. -/
def is_wide_type : DexType → Bool
  | .longT => true
  | .doubleT => true
  | _ => false

/-- Array-type test. -/
def is_array : DexType → Bool
  | .array _ => true
  | _ => false

/-- Component type of an array type (`none` on a non-array type, where the
source returns a null pointer). -/
def get_array_component_type : DexType → Option DexType
  | .array c => some c
  | _ => none

/-- The default 32-bit integer type. -/
def get_int_type : DexType := .intT

/-- Target architectures, from the pass configuration. -/
inductive Architecture where
  | unknown
  | arm
  | armv7
  | arm64
  | x86
  | x86_64
deriving DecidableEq, Repr

/-- The instruction opcodes relevant to the pass: the opcodes the transfer
function dispatches on (`OPCODE_CONST`, `OPCODE_NEW_ARRAY`,
`IOPCODE_MOVE_RESULT_PSEUDO_OBJECT`, the `OPCODE_APUT*` family — collapsed
into one constructor, as all seven aput variants share one switch branch —
and `OPCODE_MOVE`), the opcodes the rewrite engine emits
(`OPCODE_FILLED_NEW_ARRAY`, `OPCODE_MOVE_RESULT_OBJECT`, `OPCODE_CONST`,
`OPCODE_INVOKE_STATIC`, `OPCODE_MOVE_OBJECT`), and a catch-all `other` for
every remaining opcode (which the transfer function sends to its default
case). -/
inductive Opcode where
  | const
  | newArray
  | moveResultPseudoObject
  | aput
  | move
  | moveObject
  | filledNewArray
  | moveResultObject
  | invokeStatic
  | other
deriving DecidableEq, Repr

/-- An IR instruction: a stable identity (the source uses pointer identity),
an opcode, source registers, an optional destination register with wideness,
whether the instruction carries a move-result(-pseudo), an embedded literal
(for `const`) and an embedded type (for `new-array` / `filled-new-array`). -/
structure IRInstruction where
  id : Nat
  opcode : Opcode
  srcs : List Nat
  dest : Option Nat
  destIsWide : Bool
  hasMoveResult : Bool
  literal : Int
  type : DexType
deriving DecidableEq, Repr

/-- First-match lookup in an association list keyed by `Nat` (models both
`PatriciaTreeMap::at` and hash-map `find`). -/
def assoc_find {α : Type} : List (Nat × α) → Nat → Option α
  | [], _ => none
  | (k', v) :: rest, k => if k' = k then some v else assoc_find rest k

/-- The data carried by a `TrackedValue` of kind `NewArray`: declared length,
originating `new-array` instruction (by identity), the count of elements
written so far, the index-to-aput-instruction map, and the reverse membership
set of aput instructions already recorded. -/
structure NewArrayData where
  length : Nat
  new_array_insn : Nat
  aput_insns_size : Nat
  aput_insns : List (Nat × Nat)
  aput_insns_range : List Nat
deriving DecidableEq, Repr

/-- A tracked value: some other value, a 32-bit literal, or a new-array
under construction (`TrackedValueKind` of the source). -/
inductive TrackedValue where
  | other
  | literal (value : Int)
  | newArray (a : NewArrayData)
deriving DecidableEq, Repr

/-- Truncation of an integer to the signed 32-bit range, modelling the
`(int32_t)` cast applied in `make_literal`. -/
def toInt32 (l : Int) : Int := (l + 2 ^ 31) % 2 ^ 32 - 2 ^ 31

/-- `make_other`. -/
def make_other : TrackedValue := .other

/-- `make_literal`: the literal of a `const` instruction, cast to 32 bits. -/
def make_literal (l : Int) : TrackedValue := .literal (toInt32 l)

/-- `make_array`: a fresh pending array of the given (non-negative) length
originating at the given `new-array` instruction, with no elements written. -/
def make_array (length : Nat) (new_array_insn : Nat) : TrackedValue :=
  .newArray ⟨length, new_array_insn, 0, [], []⟩

/-- `is_new_array`. -/
def is_new_array : TrackedValue → Bool
  | .newArray _ => true
  | _ => false

/-- `is_literal`. -/
def is_literal : TrackedValue → Bool
  | .literal _ => true
  | _ => false

/-- `get_literal` (the source asserts `is_literal`; total here, with the
out-of-domain value never consulted by callers). -/
def get_literal : TrackedValue → Int
  | .literal l => l
  | _ => 0

/-- `is_next_index`: the candidate store index equals the current
write-count. -/
def is_next_index (a : NewArrayData) (index : Int) : Bool :=
  index = (a.aput_insns_size : Int)

/-- `is_array_literal` on the `NewArray` payload: the write-count equals the
declared length (the source guards the `TrackedValue` with `is_new_array`;
here the guard is the pattern match at each call site). -/
def is_array_literal (a : NewArrayData) : Bool :=
  a.aput_insns_size = a.length

/-- `add_element`: record a store instruction at the next index.  Fails
(source: returns `false`) when the same aput instruction was already
recorded, as detected through the reverse membership set; otherwise bumps the
write-count, extends the membership set and assigns the index in the map. -/
def add_element (array : NewArrayData) (index : Nat) (aput_insn : Nat) :
    Option NewArrayData :=
  if array.aput_insns_range.contains aput_insn then none
  else
    some { array with
            aput_insns_size := array.aput_insns_size + 1
            aput_insns_range := aput_insn :: array.aput_insns_range
            aput_insns := (index, aput_insn) :: array.aput_insns }

/-- `get_aput_insns`: the resolved store list of a complete array — for each
index below the length, the recorded aput instruction.  `none` models the
source's `always_assert(aput_insn != nullptr)` firing on a missing index. -/
def get_aput_insns (array : NewArrayData) : Option (List Nat) :=
  (List.range array.length).mapM (fun i => assoc_find array.aput_insns i)

/-- The per-register abstract domain (`HashedSetAbstractDomain` over
`TrackedValue`): the `Top` kind, or the `Value` kind holding a finite set of
elements, represented as a duplicate-free list.  (The `Bottom` kind is never
produced by the transfer function.) -/
inductive TrackedDomain where
  | top
  | value (elements : List TrackedValue)
deriving DecidableEq, Repr

/-- `get_singleton`: `none` models the source's
`always_assert(kind == Value)` firing on a `Top` domain; otherwise the unique
element of a one-element set, or `some none` for sets of other sizes. -/
def get_singleton : TrackedDomain → Option (Option TrackedValue)
  | .top => none
  | .value [v] => some (some v)
  | .value _ => some none

/-- `EscapedArrayDomain = ConstantAbstractDomain<vector<IRInstruction*>>`:
bottom, a single concrete resolved store list, or top (unknown). -/
inductive EscapedArrayDomain where
  | bottom
  | constant (aput_insns : List Nat)
  | top
deriving DecidableEq, Repr

/-- The constant-domain join: bottom is neutral, top absorbing, and two
distinct constants collapse to top. -/
def EscapedArrayDomain.join_with :
    EscapedArrayDomain → EscapedArrayDomain → EscapedArrayDomain
  | .bottom, d => d
  | .constant a, .bottom => .constant a
  | .constant a, .constant b => if a = b then .constant a else .top
  | .constant _, .top => .top
  | .top, _ => .top

/-- The escaped-constructions accumulator `m_escaped_arrays`: an association
list from `new-array` instruction identity to its `EscapedArrayDomain`. -/
abbrev EscapedMap := List (Nat × EscapedArrayDomain)

/-- `insert_or_assign` on the escaped map (models both `operator[]=` and the
`emplace`/`join_with` update applied to the entry found). -/
def esc_assign : EscapedMap → Nat → EscapedArrayDomain → EscapedMap
  | [], k, d => [(k, d)]
  | (k', d') :: rest, k, d =>
      if k' = k then (k, d) :: rest else (k', d') :: esc_assign rest k d

/-- The special result pseudo-register (`RESULT_REGISTER`). -/
def RESULT_REGISTER : Nat := 4294967295

/-- The analyzer state: the abstract environment (register to tracked
domain), plus the escaped-constructions accumulator, which lives outside the
environment lattice. -/
structure AnalyzerState where
  env : Nat → TrackedDomain
  escaped : EscapedMap

/-- Functional update of one register of the environment. -/
def set_reg (env : Nat → TrackedDomain) (r : Nat) (d : TrackedDomain) :
    Nat → TrackedDomain :=
  fun r' => if r' = r then d else env r'

/-- `set_current_state_at`: write a domain to a register; a wide write also
clobbers the paired register to top. -/
def set_current_state_at (s : AnalyzerState) (reg : Nat) (wide : Bool)
    (value : TrackedDomain) : AnalyzerState :=
  let env := set_reg s.env reg value
  let env := if wide then set_reg env (reg + 1) .top else env
  { s with env := env }

/-- Escape of one tracked value into the escaped map (the loop body of
`escape_new_arrays`): a complete array merges its resolved store list into
the accumulator (emplacing when absent, joining with the prior resolution
otherwise); an incomplete array sets its entry to top.  `none` models the
asserts inside `get_aput_insns` firing. -/
def escape_one (esc : EscapedMap) : TrackedValue → Option EscapedMap
  | .newArray a =>
      if is_array_literal a then
        match get_aput_insns a with
        | none => none
        | some l =>
            match assoc_find esc a.new_array_insn with
            | none => some (esc_assign esc a.new_array_insn (.constant l))
            | some d =>
                some (esc_assign esc a.new_array_insn
                        (d.join_with (.constant l)))
      else some (esc_assign esc a.new_array_insn .top)
  | _ => some esc

/-- `escape_new_arrays`: escape every tracked array currently reachable
through the given register.  `none` models the source's
`always_assert(kind == Value)` firing on a `Top` domain. -/
def escape_new_arrays (s : AnalyzerState) (reg : Nat) :
    Option AnalyzerState :=
  match s.env reg with
  | .top => none
  | .value es =>
      (es.foldlM escape_one s.escaped).map
        (fun esc => { s with escaped := esc })

/-- `default_case`: escape the arrays reachable through every source
register, then reset the destination register (or, for an instruction with a
move-result, the result pseudo-register) to the singleton `{Other}`. -/
def default_case (insn : IRInstruction) (s : AnalyzerState) :
    Option AnalyzerState := do
  let s ← insn.srcs.foldlM (fun st r => escape_new_arrays st r) s
  match insn.dest with
  | some d =>
      pure (set_current_state_at s d insn.destIsWide (.value [make_other]))
  | none =>
      if insn.hasMoveResult then
        pure { s with
                env := set_reg s.env RESULT_REGISTER (.value [make_other]) }
      else
        pure s

/-- The analyzer's transfer function `Analyzer::analyze_instruction`, one
case per opcode group of the source's switch.  `none` models an
`always_assert` firing (including the non-negativity assert on a resolved
new-array length, and the register-accessor asserts on malformed operand
lists). -/
def analyze_instruction (insn : IRInstruction) (s : AnalyzerState) :
    Option AnalyzerState :=
  match insn.opcode with
  | .const =>
      match insn.dest with
      | some d =>
          some (set_current_state_at s d false
                  (.value [make_literal insn.literal]))
      | none => none
  | .newArray =>
      match insn.srcs with
      | [r] =>
          match get_singleton (s.env r) with
          | none => none
          | some length? =>
              let untracked :=
                default_case insn
                  { s with escaped := esc_assign s.escaped insn.id .top }
              match length? with
              | some v =>
                  if is_literal v then
                    let length_literal := get_literal v
                    if length_literal < 0 ∨ 2147483647 < length_literal then
                      none
                    else
                      some { s with
                              env := set_reg s.env RESULT_REGISTER
                                (.value [make_array length_literal.toNat
                                          insn.id]) }
                  else untracked
              | none => untracked
      | _ => none
  | .moveResultPseudoObject =>
      match insn.dest with
      | some d =>
          some (set_current_state_at s d false (s.env RESULT_REGISTER))
      | none => none
  | .aput =>
      match insn.srcs with
      | [v, a, _i] =>
          match escape_new_arrays s v with
          | none => none
          | some s =>
              match get_singleton (s.env a), get_singleton (s.env _i) with
              | some array?, some index? =>
                  match array?, index? with
                  | some (.newArray arr), some (.literal idx) =>
                      if is_array_literal arr = false ∧
                          is_next_index arr idx then
                        match add_element arr idx.toNat insn.id with
                        | some new_array =>
                            some { s with
                                    env := set_reg s.env a
                                      (.value [.newArray new_array]) }
                        | none => default_case insn s
                      else default_case insn s
                  | _, _ => default_case insn s
              | _, _ => none
      | _ => none
  | .move =>
      match insn.srcs, insn.dest with
      | [r], some d =>
          match get_singleton (s.env r) with
          | none => none
          | some (some v) =>
              if is_literal v then
                some (set_current_state_at s d false (.value [v]))
              else default_case insn s
          | some none => default_case insn s
      | _, _ => none
  | _ => default_case insn s

/-- A straight-line run of the transfer function over an instruction list. -/
def analyze_run (prog : List IRInstruction) (s : AnalyzerState) :
    Option AnalyzerState :=
  prog.foldlM (fun st i => analyze_instruction i st) s

/-- `Analyzer::get_array_literals`: the entries of the escaped map that
converged to a concrete resolved store list. -/
def get_array_literals (esc : EscapedMap) : List (Nat × List Nat) :=
  esc.filterMap
    (fun p =>
      match p.2 with
      | .constant l => some (p.1, l)
      | _ => none)

/-- The program-order scan of the constructor: all `new-array` instructions
in linear instruction order. -/
def collect_new_array_insns (cfg : List IRInstruction) :
    List IRInstruction :=
  cfg.filter (fun i => i.opcode = Opcode.newArray)

/-- The result extractor of the constructor: filter and order the analysis
result to match the program-order scan (`m_array_literals`). -/
def extract_array_literals (new_array_insns : List IRInstruction)
    (array_literals : List (Nat × List Nat)) : List (Nat × List Nat) :=
  new_array_insns.filterMap
    (fun i => (assoc_find array_literals i.id).map (fun l => (i.id, l)))

/-- The per-method statistics counters (`ReduceArrayLiterals::Stats`). -/
structure Stats where
  filled_arrays : Nat := 0
  filled_array_elements : Nat := 0
  filled_array_chunks : Nat := 0
  remaining_wide_arrays : Nat := 0
  remaining_wide_array_elements : Nat := 0
  remaining_unimplemented_arrays : Nat := 0
  remaining_unimplemented_array_elements : Nat := 0
  remaining_buggy_arrays : Nat := 0
  remaining_buggy_array_elements : Nat := 0
deriving DecidableEq, Repr

/-- The rewrite-engine state: the CFG (as a linear instruction list, which is
the view the engine iterates and mutates), the configuration
(`m_max_filled_elements`, `m_min_sdk`, `m_arch`), the shared scratch
registers `m_local_temp_regs`, the fresh-register counter backing
`cfg.allocate_temp()`, a fresh-identity counter for newly created
instructions (the source uses heap pointers), and the statistics. -/
structure RAL where
  cfg : List IRInstruction
  max_filled_elements : Nat
  min_sdk : Int
  arch : Architecture
  local_temp_regs : List Nat
  next_temp : Nat
  next_id : Nat
  stats : Stats
deriving DecidableEq, Repr

/-- `cfg.allocate_temp()`: a monotonically increasing fresh register. -/
def allocate_temp (s : RAL) : Nat × RAL :=
  (s.next_temp, { s with next_temp := s.next_temp + 1 })

/-- A fresh instruction identity (the source's `new IRInstruction(...)`). -/
def fresh_id (s : RAL) : Nat × RAL :=
  (s.next_id, { s with next_id := s.next_id + 1 })

/-- Membership of an instruction identity in the CFG (`cfg.find_insn`
succeeding). -/
def cfg_contains (cfg : List IRInstruction) (id : Nat) : Bool :=
  cfg.any (fun i => i.id = id)

/-- The instruction immediately following the given one
(`cfg.move_result_of`). -/
def next_insn : List IRInstruction → Nat → Option IRInstruction
  | [], _ => none
  | i :: rest, id =>
      if i.id = id then rest.head? else next_insn rest id

/-- `cfg.insert_after`: splice a list of new instructions right after the
instruction with the given identity (no-op when absent; every use below is
guarded by membership). -/
def insert_after (cfg : List IRInstruction) (id : Nat)
    (new_insns : List IRInstruction) : List IRInstruction :=
  match cfg with
  | [] => []
  | i :: rest =>
      if i.id = id then i :: (new_insns ++ rest)
      else i :: insert_after rest id new_insns

/-- `cfg.insert_before`: splice one new instruction right before the
instruction with the given identity (no-op when absent). -/
def insert_before (cfg : List IRInstruction) (id : Nat)
    (new_insn : IRInstruction) : List IRInstruction :=
  match cfg with
  | [] => []
  | i :: rest =>
      if i.id = id then new_insn :: i :: rest
      else i :: insert_before rest id new_insn

/-- `cfg.remove_insn` on a plain instruction. -/
def remove_insn : List IRInstruction → Nat → List IRInstruction
  | [], _ => []
  | i :: rest, id => if i.id = id then rest else i :: remove_insn rest id

/-- `cfg.remove_insn` on an instruction carrying a move-result-pseudo: the
CFG removes the paired pseudo as well ("removes move-result-pseudo as
well"). -/
def remove_insn_with_pseudo : List IRInstruction → Nat → List IRInstruction
  | [], _ => []
  | i :: rest, id =>
      if i.id = id then
        match rest with
        | j :: rest' =>
            if j.opcode = Opcode.moveResultPseudoObject then rest' else rest
        | [] => []
      else i :: remove_insn_with_pseudo rest id

/-- The policy-gate decision for one candidate, mirroring the in-order,
short-circuiting checks of `ReduceArrayLiterals::patch` (the zero-element
drop, then the six version/type checks). -/
inductive GateDecision where
  | skip_empty
  | reject_buggy_sdk
  | reject_wide
  | reject_buggy_range
  | reject_buggy_multidim
  | reject_buggy_x86
  | reject_unimplemented
  | accept
deriving DecidableEq, Repr

/-- The policy gate of `ReduceArrayLiterals::patch`, applied to one
candidate with the given element type and element-store count. -/
def gate_decision (min_sdk : Int) (arch : Architecture)
    (element_type : DexType) (n : Nat) : GateDecision :=
  if n = 0 then .skip_empty
  else if min_sdk < 24 then .reject_buggy_sdk
  else if is_wide_type element_type then .reject_wide
  else if min_sdk < 24 ∧ 5 < n then .reject_buggy_range
  else if min_sdk < 21 ∧ is_array element_type then .reject_buggy_multidim
  else if min_sdk < 19 ∧
      (arch = Architecture.unknown ∨ arch = Architecture.x86) ∧
      is_primitive element_type = false then .reject_buggy_x86
  else if is_primitive element_type ∧ element_type ≠ get_int_type then
    .reject_unimplemented
  else .accept

/-- The temp-register growth embedded in the chunk loop of
`patch_new_array_chunk`: the loop pushes one freshly allocated register each
time the slot index reaches the current size of the per-allocation temp
vector, so after the loop the vector has at least `need` entries. -/
def ensure_temps_go : Nat → List Nat → RAL → List Nat × RAL
  | 0, temps, s => (temps, s)
  | k + 1, temps, s =>
      ensure_temps_go k (temps ++ [s.next_temp])
        { s with next_temp := s.next_temp + 1 }

/-- The loop pushes one register per missing slot, so it appends exactly
`need - temps.length` freshly allocated registers (and none when the vector
is already long enough). -/
def ensure_temps (need : Nat) (temps : List Nat) (s : RAL) :
    List Nat × RAL :=
  ensure_temps_go (need - temps.length) temps s

/-- The scratch-register provisioning of `patch_new_array`: grow
`m_local_temp_regs` to three registers (a no-op once three exist). -/
def ensure_local_temps_go : Nat → RAL → RAL
  | 0, s => s
  | k + 1, s =>
      ensure_local_temps_go k
        { s with
            local_temp_regs := s.local_temp_regs ++ [s.next_temp]
            next_temp := s.next_temp + 1 }

/-- The loop pushes one register per missing scratch slot, so it appends
exactly `3 - local_temp_regs.length` freshly allocated registers (a no-op
once three exist). -/
def ensure_local_temps (s : RAL) : RAL :=
  ensure_local_temps_go (3 - s.local_temp_regs.length) s

/-- The per-aput replacement loop of `patch_new_array_chunk`: for each index
of the chunk, assert the instruction is an aput storing into the overall
destination, insert a move from the aput's value operand into the
corresponding per-slot temp register right before it, and remove the aput. -/
def replace_aputs_go (move_op : Opcode) (aput_insns : List IRInstruction)
    (filled_srcs : List Nat) (overall_dest : Nat) (chunk_start : Nat) :
    Nat → Nat → RAL → Option RAL
  | 0, _index, s => some s
  | k + 1, index, s =>
      match aput_insns.get? index with
      | none => none
      | some aput_insn =>
          if aput_insn.opcode = Opcode.aput ∧
              aput_insn.srcs.get? 1 = some overall_dest ∧
              cfg_contains s.cfg aput_insn.id then
            match aput_insn.srcs.get? 0,
                filled_srcs.get? (index - chunk_start) with
            | some value_reg, some temp_reg =>
                let (mid, s) := fresh_id s
                let move_insn : IRInstruction :=
                  ⟨mid, move_op, [value_reg], some temp_reg, false, false,
                    0, DexType.intT⟩
                let cfg := insert_before s.cfg aput_insn.id move_insn
                let cfg := remove_insn cfg aput_insn.id
                replace_aputs_go move_op aput_insns filled_srcs overall_dest
                  chunk_start k (index + 1) { s with cfg := cfg }
            | _, _ => none
          else none

/-- The replacement loop runs over the indices `chunk_start` up to
`chunk_start + chunk_size - 1`, one slot per per-slot temp register. -/
def replace_aputs (move_op : Opcode) (aput_insns : List IRInstruction)
    (filled_srcs : List Nat) (overall_dest : Nat) (chunk_start : Nat)
    (s : RAL) : Option RAL :=
  replace_aputs_go move_op aput_insns filled_srcs overall_dest chunk_start
    filled_srcs.length chunk_start s

/-- `ReduceArrayLiterals::patch_new_array_chunk`: compute the chunk size,
build the filled-new-array instruction over the per-slot temp registers (the
per-allocation temp vector, grown as needed), its result-capturing move
(into the chunk destination when chunking, the overall destination
otherwise), and — when chunking — the three scratch constant loads and the
`System.arraycopy` call; insert them after the chunk's last aput; then
replace each aput of the chunk by a move into its per-slot temp register.
Returns the chunk size and the updated temp vector alongside the state. -/
def patch_new_array_chunk (type : DexType) (chunk_start : Nat)
    (aput_insns : List IRInstruction) (chunk_dest : Option Nat)
    (overall_dest : Nat) (temp_regs : List Nat) (s : RAL) :
    Option (Nat × List Nat × RAL) :=
  let chunk_size := min (aput_insns.length - chunk_start)
    s.max_filled_elements
  let chunk_end := chunk_start + chunk_size
  match aput_insns.get? (chunk_end - 1) with
  | none => none
  | some last_aput_insn =>
      if cfg_contains s.cfg last_aput_insn.id then
        let (temp_regs', s) := ensure_temps chunk_size temp_regs s
        let (fid, s) := fresh_id s
        let filled_new_array_insn : IRInstruction :=
          ⟨fid, Opcode.filledNewArray, temp_regs'.take chunk_size, none,
            false, true, 0, type⟩
        let (mid, s) := fresh_id s
        let move_result_object_insn : IRInstruction :=
          ⟨mid, Opcode.moveResultObject, [],
            some (chunk_dest.getD overall_dest), false, false, 0,
            DexType.intT⟩
        match chunk_dest with
        | none =>
            let cfg := insert_after s.cfg last_aput_insn.id
              [filled_new_array_insn, move_result_object_insn]
            let move_op :=
              if (get_array_component_type type).any is_primitive then
                Opcode.move
              else Opcode.moveObject
            (replace_aputs move_op aput_insns
                (temp_regs'.take chunk_size) overall_dest chunk_start
                { s with cfg := cfg }).map
              (fun s' => (chunk_size, temp_regs', s'))
        | some cd =>
            match s.local_temp_regs with
            | l0 :: l1 :: l2 :: _ =>
                let s := { s with stats :=
                  { s.stats with filled_array_chunks :=
                      s.stats.filled_array_chunks + 1 } }
                let (c0id, s) := fresh_id s
                let const0 : IRInstruction :=
                  ⟨c0id, Opcode.const, [], some l0, false, false, 0,
                    DexType.intT⟩
                let (c1id, s) := fresh_id s
                let const1 : IRInstruction :=
                  ⟨c1id, Opcode.const, [], some l1, false, false,
                    (chunk_start : Int), DexType.intT⟩
                let (c2id, s) := fresh_id s
                let const2 : IRInstruction :=
                  ⟨c2id, Opcode.const, [], some l2, false, false,
                    (chunk_size : Int), DexType.intT⟩
                let (iid, s) := fresh_id s
                let invoke_static_insn : IRInstruction :=
                  ⟨iid, Opcode.invokeStatic,
                    [cd, l0, overall_dest, l1, l2], none, false, true, 0,
                    DexType.intT⟩
                let cfg := insert_after s.cfg last_aput_insn.id
                  [filled_new_array_insn, move_result_object_insn, const0,
                    const1, const2, invoke_static_insn]
                let move_op :=
                  if (get_array_component_type type).any is_primitive then
                    Opcode.move
                  else Opcode.moveObject
                (replace_aputs move_op aput_insns
                    (temp_regs'.take chunk_size) overall_dest chunk_start
                    { s with cfg := cfg }).map
                  (fun s' => (chunk_size, temp_regs', s'))
            | _ => none
      else none

/-- The chunk loop of `ReduceArrayLiterals::patch_new_array` (`for
(chunk_start = 0; chunk_start < aput_insns.size(); chunk_start +=
chunk_size)`).  A zero chunk size can only arise from a zero
`max_filled_elements` configuration, on which the source loop would not
terminate; the model returns `none` there. -/
def patch_chunks_go (type : DexType) (aput_insns : List IRInstruction)
    (chunk_dest : Option Nat) (overall_dest : Nat) :
    Nat → Nat → List Nat → RAL → Option RAL
  | 0, chunk_start, _temp_regs, s =>
      if chunk_start < aput_insns.length then none else some s
  | fuel + 1, chunk_start, temp_regs, s =>
      if chunk_start < aput_insns.length then
        match patch_new_array_chunk type chunk_start aput_insns
            chunk_dest overall_dest temp_regs s with
        | none => none
        | some (chunk_size, temp_regs', s') =>
            if chunk_size = 0 then none
            else
              patch_chunks_go type aput_insns chunk_dest overall_dest fuel
                (chunk_start + chunk_size) temp_regs' s'
      else some s

/-- Each loop iteration advances `chunk_start` by at least one, so
`aput_insns.length` iterations always suffice; the fuel-exhaustion and
zero-chunk-size `none` results model the source loop failing to terminate,
which can only arise from a zero `max_filled_elements` configuration. -/
def patch_chunks (type : DexType) (aput_insns : List IRInstruction)
    (chunk_dest : Option Nat) (overall_dest : Nat) (chunk_start : Nat)
    (temp_regs : List Nat) (s : RAL) : Option RAL :=
  patch_chunks_go type aput_insns chunk_dest overall_dest
    aput_insns.length chunk_start temp_regs s

/-- `ReduceArrayLiterals::patch_new_array`: decide whether to chunk
(allocating the whole-array chunk destination and provisioning the shared
scratch registers when so), locate the allocation and its paired
move-result-pseudo to obtain the overall destination register, remove the
allocation (with its pseudo) when not chunking, and run the chunk loop
starting from an empty per-allocation temp vector. -/
def patch_new_array (new_array_insn : IRInstruction)
    (aput_insns : List IRInstruction) (s : RAL) : Option RAL :=
  let type := new_array_insn.type
  let (chunk_dest, s) :=
    if s.max_filled_elements < aput_insns.length then
      let (cd, s) := allocate_temp s
      (some cd, ensure_local_temps s)
    else (none, s)
  if cfg_contains s.cfg new_array_insn.id ∧
      new_array_insn.opcode = Opcode.newArray then
    match next_insn s.cfg new_array_insn.id with
    | none => none
    | some move_result_insn =>
        if move_result_insn.opcode = Opcode.moveResultPseudoObject then
          match move_result_insn.dest with
          | none => none
          | some overall_dest =>
              let s :=
                if chunk_dest.isNone then
                  { s with cfg :=
                      remove_insn_with_pseudo s.cfg new_array_insn.id }
                else s
              patch_chunks type aput_insns chunk_dest overall_dest 0 [] s
        else none
  else none

/-- One iteration of the candidate loop of `ReduceArrayLiterals::patch`:
skip empty candidates, apply the policy gate in order (each rejection
incrementing its counters), and rewrite the surviving candidate. -/
def patch_candidate (s : RAL)
    (p : IRInstruction × List IRInstruction) : Option RAL :=
  let new_array_insn := p.1
  let aput_insns := p.2
  let n := aput_insns.length
  if n = 0 then some s
  else
    match get_array_component_type new_array_insn.type with
    | none => none
    | some element_type =>
        match gate_decision s.min_sdk s.arch element_type n with
        | .skip_empty => some s
        | .reject_buggy_sdk =>
            some { s with stats := { s.stats with
              remaining_buggy_arrays := s.stats.remaining_buggy_arrays + 1
              remaining_buggy_array_elements :=
                s.stats.remaining_buggy_array_elements + n } }
        | .reject_wide =>
            some { s with stats := { s.stats with
              remaining_wide_arrays := s.stats.remaining_wide_arrays + 1
              remaining_wide_array_elements :=
                s.stats.remaining_wide_array_elements + n } }
        | .reject_buggy_range =>
            some { s with stats := { s.stats with
              remaining_buggy_arrays := s.stats.remaining_buggy_arrays + 1
              remaining_buggy_array_elements :=
                s.stats.remaining_buggy_array_elements + n } }
        | .reject_buggy_multidim =>
            some { s with stats := { s.stats with
              remaining_buggy_arrays := s.stats.remaining_buggy_arrays + 1
              remaining_buggy_array_elements :=
                s.stats.remaining_buggy_array_elements + n } }
        | .reject_buggy_x86 =>
            some { s with stats := { s.stats with
              remaining_buggy_arrays := s.stats.remaining_buggy_arrays + 1
              remaining_buggy_array_elements :=
                s.stats.remaining_buggy_array_elements + n } }
        | .reject_unimplemented =>
            some { s with stats := { s.stats with
              remaining_unimplemented_arrays :=
                s.stats.remaining_unimplemented_arrays + 1
              remaining_unimplemented_array_elements :=
                s.stats.remaining_unimplemented_array_elements + n } }
        | .accept =>
            let s := { s with stats := { s.stats with
              filled_arrays := s.stats.filled_arrays + 1
              filled_array_elements :=
                s.stats.filled_array_elements + n } }
            patch_new_array new_array_insn aput_insns s

/-- `ReduceArrayLiterals::patch`: the candidate loop over
`m_array_literals` in program order. -/
def patch (candidates : List (IRInstruction × List IRInstruction))
    (s : RAL) : Option RAL :=
  candidates.foldlM patch_candidate s

/-- A runtime value of the concrete semantics used to check rewrite
correctness: undefined, a 32-bit integer, or a reference to a heap array. -/
inductive MVal where
  | undef
  | intv (n : Int)
  | ref (a : Nat)
deriving DecidableEq, Repr

/-- A concrete machine: a register file and a heap of integer arrays. -/
structure Machine where
  regs : Nat → MVal
  heap : List (List Int)

/-- Register write. -/
def mset (m : Machine) (r : Nat) (v : MVal) : Machine :=
  { m with regs := fun r' => if r' = r then v else m.regs r' }

/-- Overwriting `len` elements of `dst` starting at `dp` with the `len`
elements of `src` starting at `sp` (the semantics of
`System.arraycopy`). -/
def list_copy (src : List Int) (sp : Nat) (dst : List Int) (dp : Nat)
    (len : Nat) : List Int :=
  dst.take dp ++ (src.drop sp).take len ++ dst.drop (dp + len)

/-- One step of the concrete semantics over the instruction forms the pass
reads and emits: constant loads, array allocation with its result-capture,
register moves, filled array construction with its result-capture, the
`System.arraycopy` call, and element stores.  Instructions with malformed
operands (never produced in the checked programs) are no-ops. -/
def exec_insn (m : Machine) (insn : IRInstruction) : Machine :=
  match insn.opcode with
  | .const =>
      match insn.dest with
      | some d => mset m d (.intv insn.literal)
      | none => m
  | .newArray =>
      match insn.srcs with
      | [r] =>
          match m.regs r with
          | .intv n =>
              if 0 ≤ n then
                let m' := mset m RESULT_REGISTER (.ref m.heap.length)
                { m' with heap := m.heap ++ [List.replicate n.toNat 0] }
              else m
          | _ => m
      | _ => m
  | .moveResultPseudoObject =>
      match insn.dest with
      | some d => mset m d (m.regs RESULT_REGISTER)
      | none => m
  | .moveResultObject =>
      match insn.dest with
      | some d => mset m d (m.regs RESULT_REGISTER)
      | none => m
  | .move =>
      match insn.srcs, insn.dest with
      | [r], some d => mset m d (m.regs r)
      | _, _ => m
  | .moveObject =>
      match insn.srcs, insn.dest with
      | [r], some d => mset m d (m.regs r)
      | _, _ => m
  | .filledNewArray =>
      let vals := insn.srcs.map (fun r =>
        match m.regs r with
        | .intv n => n
        | _ => 0)
      let m' := mset m RESULT_REGISTER (.ref m.heap.length)
      { m' with heap := m.heap ++ [vals] }
  | .invokeStatic =>
      match insn.srcs with
      | [sa, sp, da, dp, ln] =>
          match m.regs sa, m.regs sp, m.regs da, m.regs dp, m.regs ln with
          | .ref src_arr, .intv src_pos, .ref dst_arr, .intv dst_pos,
              .intv len =>
              match m.heap.get? src_arr, m.heap.get? dst_arr with
              | some src, some dst =>
                  let h := m.heap.set dst_arr
                    (list_copy src src_pos.toNat dst dst_pos.toNat
                      len.toNat)
                  { m with heap := h }
              | _, _ => m
          | _, _, _, _, _ => m
      | _ => m
  | .aput =>
      match insn.srcs with
      | [v, a, i] =>
          match m.regs v, m.regs a, m.regs i with
          | .intv value, .ref arr, .intv idx =>
              match m.heap.get? arr with
              | some l =>
                  { m with heap := m.heap.set arr (l.set idx.toNat value) }
              | none => m
          | _, _, _ => m
      | _ => m
  | _ => m

/-- Straight-line execution of an instruction list. -/
def run_machine (prog : List IRInstruction) (m : Machine) : Machine :=
  prog.foldl exec_insn m

/-- The machine with all registers undefined and an empty heap. -/
def init_machine : Machine :=
  { regs := fun _ => .undef, heap := [] }

/-- A literal-array construction program with `n` element stores: a constant
length load into register `r0`, a `new-array` (identity `base + 1`) with its
result-capture into register `r0 + 1`, then for each index `i` a constant
value load (`100 + i`) into `r0 + 2`, a constant index load into `r0 + 3`,
and an element store (identity `base + 3 * i + 5`). -/
def demo_prog (n : Nat) (base : Nat) (r0 : Nat) (ty : DexType) :
    List IRInstruction :=
  ⟨base, .const, [], some r0, false, false, (n : Int), .intT⟩ ::
  ⟨base + 1, .newArray, [r0], none, false, true, 0, ty⟩ ::
  ⟨base + 2, .moveResultPseudoObject, [], some (r0 + 1), false, false, 0,
    .intT⟩ ::
  List.flatten ((List.range n).map (fun i =>
    [⟨base + 3 * i + 3, .const, [], some (r0 + 2), false, false,
        100 + (i : Int), .intT⟩,
     ⟨base + 3 * i + 4, .const, [], some (r0 + 3), false, false, (i : Int),
        .intT⟩,
     ⟨base + 3 * i + 5, .aput, [r0 + 2, r0 + 1, r0 + 3], none, false,
        false, 0, .intT⟩]))

/-- The `new-array` instruction of `demo_prog`. -/
def demo_new_array (base : Nat) (r0 : Nat) (ty : DexType) : IRInstruction :=
  ⟨base + 1, .newArray, [r0], none, false, true, 0, ty⟩

/-- The element-store instructions of `demo_prog`, in index order. -/
def demo_aputs (n : Nat) (base : Nat) (r0 : Nat) : List IRInstruction :=
  (List.range n).map (fun i =>
    ⟨base + 3 * i + 5, .aput, [r0 + 2, r0 + 1, r0 + 3], none, false, false,
      0, .intT⟩)

/-- A rewrite-engine state over `demo_prog n 0 0 ty` with the default
maximum chunk size 27 and fresh counters above the used registers and
identities. -/
def demo_ral (n : Nat) (ty : DexType) (sdk : Int) : RAL :=
  { cfg := demo_prog n 0 0 ty
    max_filled_elements := 27
    min_sdk := sdk
    arch := .unknown
    local_temp_regs := []
    next_temp := 10
    next_id := 1000
    stats := {} }

/-- The contiguity property of a pending array: the set of recorded indices
is exactly `{0, ..., write-count − 1}`. -/
def Contiguous (a : NewArrayData) : Prop :=
  ∀ i : Nat, (assoc_find a.aput_insns i).isSome ↔ i < a.aput_insns_size

/-- The elements of a tracked domain (none for the top kind). -/
def domain_elements : TrackedDomain → List TrackedValue
  | .top => []
  | .value es => es

/-- Every pending array reachable through a domain is contiguous. -/
def DomainContiguous (d : TrackedDomain) : Prop :=
  ∀ a, TrackedValue.newArray a ∈ domain_elements d → Contiguous a

/-- Every pending array reachable through any register is contiguous. -/
def StateContiguous (s : AnalyzerState) : Prop :=
  ∀ r, DomainContiguous (s.env r)

/-- The analyzer's initial state: the top environment (all registers
unconstrained) and an empty escaped-constructions accumulator. -/
def init_analyzer : AnalyzerState :=
  ⟨fun _ => TrackedDomain.top, []⟩

/-- Every allocation recorded in the escaped map, and the origin of every
pending array reachable through the environment, is a `new-array`
instruction of the program `P`. -/
def OriginsBounded (P : List IRInstruction) (s : AnalyzerState) : Prop :=
  (∀ k d, (k, d) ∈ s.escaped →
    k ∈ (collect_new_array_insns P).map IRInstruction.id) ∧
  (∀ r a, TrackedValue.newArray a ∈ domain_elements (s.env r) →
    a.new_array_insn ∈ (collect_new_array_insns P).map IRInstruction.id)

/-- A method body holding two independent array allocations of 30
elements each (the second shifted to disjoint instruction ids and
registers), to exercise the rewrite of several candidates in one pass. -/
def demo_prog_two (ty : DexType) : List IRInstruction :=
  demo_prog 30 0 0 ty ++ demo_prog 30 200 4 ty

/-- A rewrite-engine state over `demo_prog_two` with the default maximum
chunk size 27 and minimum platform version 25. -/
def demo_ral_two (ty : DexType) : RAL :=
  { cfg := demo_prog_two ty
    max_filled_elements := 27
    min_sdk := 25
    arch := Architecture.unknown
    local_temp_regs := []
    next_temp := 10
    next_id := 1000
    stats := {} }

/-- The two candidates of `demo_prog_two`, in program order. -/
def demo_candidates_two (ty : DexType) :
    List (IRInstruction × List IRInstruction) :=
  [(demo_new_array 0 0 ty, demo_aputs 30 0 0),
   (demo_new_array 200 4 ty, demo_aputs 30 200 4)]

theorem assoc_find_assign {esc : EscapedMap} {k k' : Nat}
    {d : EscapedArrayDomain} :
    assoc_find (esc_assign esc k d) k' =
      if k = k' then some d else assoc_find esc k' := by
  induction esc with
  | nil => simp [esc_assign, assoc_find]
  | cons p rest ih =>
      obtain ⟨k0, d0⟩ := p
      by_cases h : k0 = k
      · subst h
        simp only [esc_assign, if_pos rfl, assoc_find]
        by_cases h2 : k0 = k' <;> simp [h2]
      · simp only [esc_assign, if_neg h, assoc_find, ih]
        by_cases h2 : k0 = k'
        · subst h2
          have hnk : ¬(k = k0) := fun hk => h hk.symm
          simp [hnk]
        · simp [h2]

theorem escape_one_sticky {esc esc' : EscapedMap} {v : TrackedValue}
    {k : Nat} (h : escape_one esc v = some esc')
    (ht : assoc_find esc k = some EscapedArrayDomain.top) :
    assoc_find esc' k = some EscapedArrayDomain.top := by
  cases v with
  | other =>
      simp only [escape_one, Option.some.injEq] at h
      subst h; exact ht
  | literal l =>
      simp only [escape_one, Option.some.injEq] at h
      subst h; exact ht
  | newArray a =>
      simp only [escape_one] at h
      by_cases hc : is_array_literal a = true
      · rw [if_pos hc] at h
        cases hg : get_aput_insns a with
        | none => rw [hg] at h; cases h
        | some l =>
            rw [hg] at h
            cases hf : assoc_find esc a.new_array_insn with
            | none =>
                rw [hf] at h
                simp only [Option.some.injEq] at h
                subst h
                rw [assoc_find_assign]
                by_cases hk : a.new_array_insn = k
                · subst hk; rw [hf] at ht; cases ht
                · simp [hk, ht]
            | some d =>
                rw [hf] at h
                simp only [Option.some.injEq] at h
                subst h
                rw [assoc_find_assign]
                by_cases hk : a.new_array_insn = k
                · subst hk
                  rw [hf] at ht
                  injection ht with hd
                  subst hd
                  simp [EscapedArrayDomain.join_with]
                · simp [hk, ht]
      · rw [if_neg hc] at h
        simp only [Option.some.injEq] at h
        subst h
        rw [assoc_find_assign]
        by_cases hk : a.new_array_insn = k
        · simp [hk]
        · simp [hk, ht]

theorem foldl_escape_one_sticky {es : List TrackedValue}
    {esc esc' : EscapedMap} {k : Nat}
    (h : es.foldlM escape_one esc = some esc')
    (ht : assoc_find esc k = some EscapedArrayDomain.top) :
    assoc_find esc' k = some EscapedArrayDomain.top := by
  induction es generalizing esc with
  | nil =>
      injection h with h
      subst h; exact ht
  | cons v rest ih =>
      rw [List.foldlM_cons] at h
      cases hv : escape_one esc v with
      | none => rw [hv] at h; cases h
      | some esc₁ =>
          rw [hv] at h
          exact ih h (escape_one_sticky hv ht)

theorem set_current_state_at_escaped (s : AnalyzerState) (reg : Nat)
    (wide : Bool) (v : TrackedDomain) :
    (set_current_state_at s reg wide v).escaped = s.escaped := by
  cases wide <;> rfl

theorem escape_new_arrays_env {s s' : AnalyzerState} {r : Nat}
    (h : escape_new_arrays s r = some s') : s'.env = s.env := by
  unfold escape_new_arrays at h
  cases he : s.env r with
  | top => rw [he] at h; cases h
  | value es =>
      rw [he] at h
      dsimp only at h
      cases hf : es.foldlM escape_one s.escaped with
      | none => rw [hf] at h; cases h
      | some esc' => rw [hf] at h; injection h with h; subst h; rfl

theorem escape_new_arrays_sticky {s s' : AnalyzerState} {r k : Nat}
    (h : escape_new_arrays s r = some s')
    (ht : assoc_find s.escaped k = some EscapedArrayDomain.top) :
    assoc_find s'.escaped k = some EscapedArrayDomain.top := by
  unfold escape_new_arrays at h
  cases he : s.env r with
  | top => rw [he] at h; cases h
  | value es =>
      rw [he] at h
      dsimp only at h
      cases hf : es.foldlM escape_one s.escaped with
      | none => rw [hf] at h; cases h
      | some esc' =>
          rw [hf] at h
          injection h with h
          subst h
          exact foldl_escape_one_sticky hf ht

theorem foldl_escape_regs_env {rs : List Nat} {s s' : AnalyzerState}
    (h : rs.foldlM (fun st r => escape_new_arrays st r) s = some s') :
    s'.env = s.env := by
  induction rs generalizing s with
  | nil => injection h with h; subst h; rfl
  | cons r rest ih =>
      rw [List.foldlM_cons] at h
      cases he : escape_new_arrays s r with
      | none => rw [he] at h; cases h
      | some s₁ =>
          rw [he] at h
          rw [ih h, escape_new_arrays_env he]

theorem foldl_escape_regs_sticky {rs : List Nat} {s s' : AnalyzerState}
    {k : Nat}
    (h : rs.foldlM (fun st r => escape_new_arrays st r) s = some s')
    (ht : assoc_find s.escaped k = some EscapedArrayDomain.top) :
    assoc_find s'.escaped k = some EscapedArrayDomain.top := by
  induction rs generalizing s with
  | nil => injection h with h; subst h; exact ht
  | cons r rest ih =>
      rw [List.foldlM_cons] at h
      cases he : escape_new_arrays s r with
      | none => rw [he] at h; cases h
      | some s₁ =>
          rw [he] at h
          exact ih h (escape_new_arrays_sticky he ht)

theorem default_case_sticky {insn : IRInstruction} {s s' : AnalyzerState}
    {k : Nat} (h : default_case insn s = some s')
    (ht : assoc_find s.escaped k = some EscapedArrayDomain.top) :
    assoc_find s'.escaped k = some EscapedArrayDomain.top := by
  obtain ⟨iid, op, srcs, dst, wide, hmr, lit, ty⟩ := insn
  unfold default_case at h
  cases hf : srcs.foldlM (fun st r => escape_new_arrays st r) s with
  | none => rw [hf] at h; cases h
  | some s₁ =>
      rw [hf] at h
      have ht₁ := foldl_escape_regs_sticky hf ht
      cases dst with
      | some d =>
          injection h with h
          subst h
          rw [set_current_state_at_escaped]
          exact ht₁
      | none =>
          cases hmr with
          | true => injection h with h; subst h; exact ht₁
          | false => injection h with h; subst h; exact ht₁

theorem analyze_instruction_sticky {insn : IRInstruction}
    {s s' : AnalyzerState} {k : Nat}
    (h : analyze_instruction insn s = some s')
    (ht : assoc_find s.escaped k = some EscapedArrayDomain.top) :
    assoc_find s'.escaped k = some EscapedArrayDomain.top := by
  obtain ⟨iid, op, srcs, dst, wide, hmr, lit, ty⟩ := insn
  cases op with
  | const =>
      cases dst with
      | none => simp only [analyze_instruction] at h; exact Option.noConfusion h
      | some d =>
          simp only [analyze_instruction, Option.some.injEq] at h
          subst h
          rw [set_current_state_at_escaped]
          exact ht
  | newArray =>
      cases srcs with
      | nil => simp only [analyze_instruction] at h; exact Option.noConfusion h
      | cons r rest =>
          cases rest with
          | cons x xs => simp only [analyze_instruction] at h; exact Option.noConfusion h
          | nil =>
              simp only [analyze_instruction] at h
              cases hg : get_singleton (s.env r) with
              | none => rw [hg] at h; cases h
              | some length? =>
                  rw [hg] at h
                  have ht1 : assoc_find (esc_assign s.escaped iid
                      EscapedArrayDomain.top) k =
                      some EscapedArrayDomain.top := by
                    rw [assoc_find_assign]
                    by_cases hik : iid = k
                    · simp [hik]
                    · simp [hik, ht]
                  cases length? with
                  | none => exact default_case_sticky h ht1
                  | some v =>
                      dsimp only at h
                      by_cases hl : is_literal v = true
                      · rw [if_pos hl] at h
                        by_cases hneg : get_literal v < 0 ∨
                            2147483647 < get_literal v
                        · rw [if_pos hneg] at h; cases h
                        · rw [if_neg hneg] at h
                          injection h with h
                          subst h
                          exact ht
                      · rw [if_neg hl] at h
                        exact default_case_sticky h ht1
  | moveResultPseudoObject =>
      cases dst with
      | none => simp only [analyze_instruction] at h; exact Option.noConfusion h
      | some d =>
          simp only [analyze_instruction, Option.some.injEq] at h
          subst h
          rw [set_current_state_at_escaped]
          exact ht
  | aput =>
      match srcs, h with
      | [], h => simp only [analyze_instruction] at h; exact Option.noConfusion h
      | [_], h => simp only [analyze_instruction] at h; exact Option.noConfusion h
      | [_, _], h => simp only [analyze_instruction] at h; exact Option.noConfusion h
      | _ :: _ :: _ :: _ :: _, h => simp only [analyze_instruction] at h; exact Option.noConfusion h
      | [v, a, i], h =>
          simp only [analyze_instruction] at h
          cases he : escape_new_arrays s v with
          | none => rw [he] at h; cases h
          | some s1 =>
              rw [he] at h
              dsimp only at h
              have ht1 := escape_new_arrays_sticky he ht
              cases ha : get_singleton (s1.env a) with
              | none => rw [ha] at h; cases h
              | some array? =>
                  rw [ha] at h
                  cases hi : get_singleton (s1.env i) with
                  | none => rw [hi] at h; cases h
                  | some index? =>
                      rw [hi] at h
                      cases array? with
                      | none => exact default_case_sticky h ht1
                      | some av =>
                          cases av with
                          | other => exact default_case_sticky h ht1
                          | literal l => exact default_case_sticky h ht1
                          | newArray arr =>
                              cases index? with
                              | none => exact default_case_sticky h ht1
                              | some iv =>
                                  cases iv with
                                  | other =>
                                      exact default_case_sticky h ht1
                                  | newArray a2 =>
                                      exact default_case_sticky h ht1
                                  | literal idx =>
                                      dsimp only at h
                                      by_cases hc :
                                          is_array_literal arr = false ∧
                                          is_next_index arr idx = true
                                      · rw [if_pos hc] at h
                                        cases hadd : add_element arr
                                            idx.toNat iid with
                                        | none =>
                                            rw [hadd] at h
                                            exact default_case_sticky h ht1
                                        | some na =>
                                            rw [hadd] at h
                                            injection h with h
                                            subst h
                                            exact ht1
                                      · rw [if_neg hc] at h
                                        exact default_case_sticky h ht1
  | move =>
      cases dst with
      | none => simp only [analyze_instruction] at h; exact Option.noConfusion h
      | some d =>
          match srcs, h with
          | [], h => simp only [analyze_instruction] at h; exact Option.noConfusion h
          | _ :: _ :: _, h => simp only [analyze_instruction] at h; exact Option.noConfusion h
          | [r], h =>
              simp only [analyze_instruction] at h
              cases hg : get_singleton (s.env r) with
              | none => rw [hg] at h; cases h
              | some v? =>
                  rw [hg] at h
                  cases v? with
                  | none => exact default_case_sticky h ht
                  | some v =>
                      dsimp only at h
                      by_cases hl : is_literal v = true
                      · rw [if_pos hl] at h
                        injection h with h
                        subst h
                        rw [set_current_state_at_escaped]
                        exact ht
                      · rw [if_neg hl] at h
                        exact default_case_sticky h ht
  | moveObject => exact default_case_sticky h ht
  | filledNewArray => exact default_case_sticky h ht
  | moveResultObject => exact default_case_sticky h ht
  | invokeStatic => exact default_case_sticky h ht
  | other => exact default_case_sticky h ht

theorem analyze_run_sticky {prog : List IRInstruction}
    {s s' : AnalyzerState} {k : Nat}
    (h : analyze_run prog s = some s')
    (ht : assoc_find s.escaped k = some EscapedArrayDomain.top) :
    assoc_find s'.escaped k = some EscapedArrayDomain.top := by
  induction prog generalizing s with
  | nil => injection h with h; subst h; exact ht
  | cons insn rest ih =>
      rw [analyze_run, List.foldlM_cons] at h
      cases hi : analyze_instruction insn s with
      | none => rw [hi] at h; cases h
      | some s₁ =>
          rw [hi] at h
          exact ih h (analyze_instruction_sticky hi ht)

/-- C6: monotonicity of the escaped-constructions accumulator.  First, top
is sticky: once an allocation's entry is unknown, no later transfer step of
a run ever changes it back (to a concrete resolution or anything else).
Second, escaping the same allocation with a second, different concrete
resolution collapses its entry to unknown. -/
theorem escaped_map_monotonicity :
    (∀ (prog : List IRInstruction) (s s' : AnalyzerState) (k : Nat),
      analyze_run prog s = some s' →
      assoc_find s.escaped k = some EscapedArrayDomain.top →
      assoc_find s'.escaped k = some EscapedArrayDomain.top) ∧
    (∀ (esc esc' : EscapedMap) (a : NewArrayData) (l1 l2 : List Nat),
      assoc_find esc a.new_array_insn =
        some (EscapedArrayDomain.constant l1) →
      get_aput_insns a = some l2 → l2 ≠ l1 →
      escape_one esc (TrackedValue.newArray a) = some esc' →
      assoc_find esc' a.new_array_insn = some EscapedArrayDomain.top) := by
  constructor
  · exact fun prog s s' k h ht => analyze_run_sticky h ht
  · intro esc esc' a l1 l2 hf hg hne h
    simp only [escape_one] at h
    by_cases hc : is_array_literal a = true
    · rw [if_pos hc, hg, hf] at h
      injection h with h
      subst h
      have hj : EscapedArrayDomain.join_with (.constant l1) (.constant l2) =
          EscapedArrayDomain.top := by
        simp only [EscapedArrayDomain.join_with]
        rw [if_neg (fun hx => hne hx.symm)]
      rw [assoc_find_assign, if_pos rfl, hj]
    · rw [if_neg hc] at h
      injection h with h
      subst h
      rw [assoc_find_assign]
      simp

/-- C6 witness: both parts of the monotonicity theorem applied at concrete
inputs — an entry already unknown stays unknown across an (empty) run, and
escaping the allocation `5` with resolution `[9]` over a prior resolution
`[7]` collapses the entry to unknown. -/
theorem escaped_map_monotonicity_witness :
    assoc_find (AnalyzerState.escaped ⟨fun _ => TrackedDomain.top,
        [(5, EscapedArrayDomain.top)]⟩) 5 = some EscapedArrayDomain.top ∧
    assoc_find ([(5, EscapedArrayDomain.top)] : EscapedMap) 5 =
      some EscapedArrayDomain.top :=
  ⟨escaped_map_monotonicity.1 [] ⟨fun _ => .top, [(5, .top)]⟩
      ⟨fun _ => .top, [(5, .top)]⟩ 5 rfl (by decide),
   escaped_map_monotonicity.2 [(5, .constant [7])] [(5, .top)]
      ⟨1, 5, 1, [(0, 9)], [9]⟩ [7] [9] (by decide) (by decide) (by decide)
      (by decide)⟩

theorem assoc_find_mem {α : Type} {l : List (Nat × α)} {k : Nat} {v : α}
    (h : assoc_find l k = some v) : (k, v) ∈ l := by
  induction l with
  | nil => cases h
  | cons p rest ih =>
      obtain ⟨k0, v0⟩ := p
      by_cases hk : k0 = k
      · subst hk
        rw [assoc_find, if_pos rfl] at h
        injection h with h
        subst h
        exact List.mem_cons_self _ _
      · rw [assoc_find, if_neg hk] at h
        exact List.mem_cons_of_mem _ (ih h)

theorem mem_assoc_find {α : Type} {l : List (Nat × α)} {k : Nat} {v : α}
    (h : (k, v) ∈ l) (hnd : (l.map Prod.fst).Nodup) :
    assoc_find l k = some v := by
  induction l with
  | nil => cases h
  | cons p rest ih =>
      obtain ⟨k0, v0⟩ := p
      rcases List.mem_cons.mp h with heq | hmem
      · injection heq with h1 h2
        subst h1; subst h2
        rw [assoc_find, if_pos rfl]
      · have hk : ¬(k0 = k) := by
          intro he
          subst he
          exact (List.nodup_cons.mp hnd).1
            (List.mem_map.mpr ⟨(k0, v), hmem, rfl⟩)
        rw [assoc_find, if_neg hk]
        exact ih hmem (List.nodup_cons.mp hnd).2

theorem assoc_find_none_iff {α : Type} {l : List (Nat × α)} {k : Nat} :
    assoc_find l k = none ↔ k ∉ l.map Prod.fst := by
  induction l with
  | nil => simp [assoc_find]
  | cons p rest ih =>
      obtain ⟨k0, v0⟩ := p
      by_cases hk : k0 = k
      · subst hk
        simp [assoc_find]
      · rw [assoc_find, if_neg hk]
        simp only [List.map_cons, List.mem_cons, ih]
        constructor
        · intro hn hc
          rcases hc with hc | hc
          · exact hk hc.symm
          · exact hn hc
        · intro hn hc
          exact hn (Or.inr hc)

theorem assoc_find_perm {α : Type} {l₁ l₂ : List (Nat × α)}
    (hp : l₁.Perm l₂) (hnd : (l₁.map Prod.fst).Nodup) (k : Nat) :
    assoc_find l₁ k = assoc_find l₂ k := by
  have hnd₂ : (l₂.map Prod.fst).Nodup :=
    ((hp.map Prod.fst).nodup_iff).mp hnd
  cases h : assoc_find l₁ k with
  | some v =>
      exact (mem_assoc_find (hp.mem_iff.mp (assoc_find_mem h)) hnd₂).symm
  | none =>
      have hk : k ∉ l₂.map Prod.fst := by
        intro hc
        exact (assoc_find_none_iff.mp h)
          (((hp.map Prod.fst).mem_iff).mpr hc)
      exact (assoc_find_none_iff.mpr hk).symm

theorem esc_assign_mem {esc : EscapedMap} {k0 k : Nat}
    {d0 d : EscapedArrayDomain} (h : (k, d) ∈ esc_assign esc k0 d0) :
    (k, d) ∈ esc ∨ k = k0 := by
  induction esc with
  | nil =>
      simp only [esc_assign, List.mem_singleton] at h
      injection h with h1 h2
      exact Or.inr h1
  | cons p rest ih =>
      obtain ⟨k1, d1⟩ := p
      by_cases hk : k1 = k0
      · subst hk
        rw [esc_assign, if_pos rfl] at h
        rcases List.mem_cons.mp h with heq | hmem
        · injection heq with h1 h2
          exact Or.inr h1
        · exact Or.inl (List.mem_cons_of_mem _ hmem)
      · rw [esc_assign, if_neg hk] at h
        rcases List.mem_cons.mp h with heq | hmem
        · exact Or.inl (List.mem_cons.mpr (Or.inl heq))
        · rcases ih hmem with hm | he
          · exact Or.inl (List.mem_cons_of_mem _ hm)
          · exact Or.inr he

theorem esc_assign_keys_nodup {esc : EscapedMap} {k : Nat}
    {d : EscapedArrayDomain} (hnd : (esc.map Prod.fst).Nodup) :
    ((esc_assign esc k d).map Prod.fst).Nodup := by
  induction esc with
  | nil => simp [esc_assign]
  | cons p rest ih =>
      obtain ⟨k1, d1⟩ := p
      rw [List.map_cons, List.nodup_cons] at hnd
      by_cases hk : k1 = k
      · subst hk
        rw [esc_assign, if_pos rfl, List.map_cons, List.nodup_cons]
        exact ⟨hnd.1, hnd.2⟩
      · rw [esc_assign, if_neg hk, List.map_cons, List.nodup_cons]
        constructor
        · intro hc
          rcases List.mem_map.mp hc with ⟨⟨k2, d2⟩, hm, he⟩
          rcases esc_assign_mem hm with hm2 | he2
          · exact hnd.1 (List.mem_map.mpr ⟨(k2, d2), hm2, he⟩)
          · dsimp at he
            subst he
            exact hk he2
        · exact ih hnd.2

theorem set_reg_eq (env : Nat → TrackedDomain) (r : Nat)
    (d : TrackedDomain) (r' : Nat) :
    set_reg env r d r' = if r' = r then d else env r' := rfl

theorem set_current_state_at_env_cases (s : AnalyzerState) (reg : Nat)
    (wide : Bool) (v : TrackedDomain) (r : Nat) :
    (set_current_state_at s reg wide v).env r = s.env r ∨
    (set_current_state_at s reg wide v).env r = v ∨
    (set_current_state_at s reg wide v).env r = TrackedDomain.top := by
  cases wide with
  | false =>
      by_cases hr : r = reg
      · right; left; simp [set_current_state_at, set_reg, hr]
      · left; simp [set_current_state_at, set_reg, hr]
  | true =>
      by_cases h1 : r = reg + 1
      · right; right; simp [set_current_state_at, set_reg, h1]
      · by_cases hr : r = reg
        · right; left; simp [set_current_state_at, set_reg, h1, hr]
        · left; simp [set_current_state_at, set_reg, h1, hr]

theorem escape_one_spec {esc esc' : EscapedMap} {v : TrackedValue}
    (h : escape_one esc v = some esc') :
    (∀ k d, (k, d) ∈ esc' → (∃ d0, (k, d0) ∈ esc) ∨
      ∃ a : NewArrayData, v = TrackedValue.newArray a ∧
        k = a.new_array_insn) ∧
    ((esc.map Prod.fst).Nodup → (esc'.map Prod.fst).Nodup) := by
  cases v with
  | other =>
      injection h with h
      subst h
      exact ⟨fun k d hm => Or.inl ⟨d, hm⟩, fun hnd => hnd⟩
  | literal l =>
      injection h with h
      subst h
      exact ⟨fun k d hm => Or.inl ⟨d, hm⟩, fun hnd => hnd⟩
  | newArray a =>
      simp only [escape_one] at h
      by_cases hc : is_array_literal a = true
      · rw [if_pos hc] at h
        cases hg : get_aput_insns a with
        | none => rw [hg] at h; cases h
        | some l =>
            rw [hg] at h
            cases hf : assoc_find esc a.new_array_insn with
            | none =>
                rw [hf] at h
                injection h with h
                subst h
                constructor
                · intro k d hm
                  rcases esc_assign_mem hm with hm2 | he
                  · exact Or.inl ⟨d, hm2⟩
                  · exact Or.inr ⟨a, rfl, he⟩
                · exact fun hnd => esc_assign_keys_nodup hnd
            | some d0 =>
                rw [hf] at h
                injection h with h
                subst h
                constructor
                · intro k d hm
                  rcases esc_assign_mem hm with hm2 | he
                  · exact Or.inl ⟨d, hm2⟩
                  · exact Or.inr ⟨a, rfl, he⟩
                · exact fun hnd => esc_assign_keys_nodup hnd
      · rw [if_neg hc] at h
        injection h with h
        subst h
        constructor
        · intro k d hm
          rcases esc_assign_mem hm with hm2 | he
          · exact Or.inl ⟨d, hm2⟩
          · exact Or.inr ⟨a, rfl, he⟩
        · exact fun hnd => esc_assign_keys_nodup hnd

theorem foldl_escape_one_spec {es : List TrackedValue}
    {esc esc' : EscapedMap} (h : es.foldlM escape_one esc = some esc') :
    (∀ k d, (k, d) ∈ esc' → (∃ d0, (k, d0) ∈ esc) ∨
      ∃ a : NewArrayData, TrackedValue.newArray a ∈ es ∧
        k = a.new_array_insn) ∧
    ((esc.map Prod.fst).Nodup → (esc'.map Prod.fst).Nodup) := by
  induction es generalizing esc with
  | nil =>
      injection h with h
      subst h
      exact ⟨fun k d hm => Or.inl ⟨d, hm⟩, fun hnd => hnd⟩
  | cons v rest ih =>
      rw [List.foldlM_cons] at h
      cases hv : escape_one esc v with
      | none => rw [hv] at h; cases h
      | some esc₁ =>
          rw [hv] at h
          obtain ⟨ih1, ih2⟩ := ih h
          obtain ⟨hv1, hv2⟩ := escape_one_spec hv
          constructor
          · intro k d hm
            rcases ih1 k d hm with ⟨d1, hm1⟩ | ⟨a, ha, hk⟩
            · rcases hv1 k d1 hm1 with ⟨d0, hm0⟩ | ⟨a, ha, hk⟩
              · exact Or.inl ⟨d0, hm0⟩
              · exact Or.inr ⟨a, ha ▸ List.mem_cons_self _ _, hk⟩
            · exact Or.inr ⟨a, List.mem_cons_of_mem _ ha, hk⟩
          · exact fun hnd => ih2 (hv2 hnd)

theorem escape_new_arrays_spec {s s' : AnalyzerState} {r : Nat}
    (h : escape_new_arrays s r = some s') :
    s'.env = s.env ∧
    (∀ k d, (k, d) ∈ s'.escaped → (∃ d0, (k, d0) ∈ s.escaped) ∨
      ∃ a : NewArrayData,
        TrackedValue.newArray a ∈ domain_elements (s.env r) ∧
        k = a.new_array_insn) ∧
    ((s.escaped.map Prod.fst).Nodup →
      (s'.escaped.map Prod.fst).Nodup) := by
  unfold escape_new_arrays at h
  cases he : s.env r with
  | top => rw [he] at h; cases h
  | value es =>
      rw [he] at h
      dsimp only at h
      cases hf : es.foldlM escape_one s.escaped with
      | none => rw [hf] at h; cases h
      | some esc' =>
          rw [hf] at h
          injection h with h
          subst h
          obtain ⟨h1, h2⟩ := foldl_escape_one_spec hf
          refine ⟨rfl, ?_, h2⟩
      
          intro k d hm
          rcases h1 k d hm with hm0 | ⟨a, ha, hk⟩
          · exact Or.inl hm0
          · exact Or.inr ⟨a, ha, hk⟩

theorem foldl_escape_regs_spec {rs : List Nat} {s s' : AnalyzerState}
    (h : rs.foldlM (fun st r => escape_new_arrays st r) s = some s') :
    s'.env = s.env ∧
    (∀ k d, (k, d) ∈ s'.escaped → (∃ d0, (k, d0) ∈ s.escaped) ∨
      ∃ r0 a, TrackedValue.newArray a ∈ domain_elements (s.env r0) ∧
        k = a.new_array_insn) ∧
    ((s.escaped.map Prod.fst).Nodup →
      (s'.escaped.map Prod.fst).Nodup) := by
  induction rs generalizing s with
  | nil =>
      injection h with h
      subst h
      exact ⟨rfl, fun k d hm => Or.inl ⟨d, hm⟩, fun hnd => hnd⟩
  | cons r rest ih =>
      rw [List.foldlM_cons] at h
      cases he : escape_new_arrays s r with
      | none => rw [he] at h; cases h
      | some s₁ =>
          rw [he] at h
          obtain ⟨ihe, ih1, ih2⟩ := ih h
          obtain ⟨he1, he2, he3⟩ := escape_new_arrays_spec he
          refine ⟨by rw [ihe, he1], ?_, fun hnd => ih2 (he3 hnd)⟩
          intro k d hm
          rcases ih1 k d hm with ⟨d1, hm1⟩ | ⟨r0, a, ha, hk⟩
          · rcases he2 k d1 hm1 with hm0 | ⟨a, ha, hk⟩
            · exact Or.inl hm0
            · exact Or.inr ⟨r, a, ha, hk⟩
          · rw [he1] at ha
            exact Or.inr ⟨r0, a, ha, hk⟩

theorem default_case_spec {insn : IRInstruction} {s s' : AnalyzerState}
    (h : default_case insn s = some s') :
    (∀ r, s'.env r = s.env r ∨
      s'.env r = TrackedDomain.value [make_other] ∨
      s'.env r = TrackedDomain.top) ∧
    (∀ k d, (k, d) ∈ s'.escaped → (∃ d0, (k, d0) ∈ s.escaped) ∨
      ∃ r0 a, TrackedValue.newArray a ∈ domain_elements (s.env r0) ∧
        k = a.new_array_insn) ∧
    ((s.escaped.map Prod.fst).Nodup →
      (s'.escaped.map Prod.fst).Nodup) := by
  obtain ⟨iid, op, srcs, dst, wide, hmr, lit, ty⟩ := insn
  unfold default_case at h
  cases hf : srcs.foldlM (fun st r => escape_new_arrays st r) s with
  | none => rw [hf] at h; cases h
  | some s₁ =>
      rw [hf] at h
      obtain ⟨hf1, hf2, hf3⟩ := foldl_escape_regs_spec hf
      cases dst with
      | some d =>
          injection h with h
          subst h
          refine ⟨?_, hf2, hf3⟩
          intro r
          rcases set_current_state_at_env_cases s₁ d wide
              (TrackedDomain.value [make_other]) r with h1 | h1 | h1 <;>
            rw [h1]
          · rw [hf1]
            exact Or.inl rfl
          · exact Or.inr (Or.inl rfl)
          · exact Or.inr (Or.inr rfl)
      | none =>
          cases hmr with
          | true =>
              injection h with h
              subst h
              refine ⟨?_, hf2, hf3⟩
              intro r
              by_cases hr : r = RESULT_REGISTER
              · right; left
                simp [set_reg, hr]
              · left
                simp only [set_reg]
                rw [if_neg hr, hf1]
          | false =>
              injection h with h
              subst h
              refine ⟨?_, hf2, hf3⟩
              intro r
              rw [hf1]
              exact Or.inl rfl

theorem get_singleton_some {d : TrackedDomain} {v : TrackedValue}
    (h : get_singleton d = some (some v)) : d = TrackedDomain.value [v] := by
  cases d with
  | top => cases h
  | value es =>
      cases es with
      | nil => cases h  
      | cons w tail =>
          cases tail with
          | nil =>
              simp only [get_singleton, Option.some.injEq] at h
              rw [h]
          | cons x xs =>
              simp only [get_singleton] at h
              injection h with h
              exact Option.noConfusion h

theorem new_array_mem_set_cases {s : AnalyzerState} {reg : Nat}
    {wide : Bool} {v : TrackedDomain} {r : Nat} {a : NewArrayData}
    (ha : TrackedValue.newArray a ∈ domain_elements
      ((set_current_state_at s reg wide v).env r)) :
    TrackedValue.newArray a ∈ domain_elements (s.env r) ∨
    TrackedValue.newArray a ∈ domain_elements v := by
  rcases set_current_state_at_env_cases s reg wide v r with h | h | h <;>
    rw [h] at ha
  · exact Or.inl ha
  · exact Or.inr ha
  · simp [domain_elements] at ha

theorem analyze_instruction_spec {insn : IRInstruction}
    {s s' : AnalyzerState} (h : analyze_instruction insn s = some s') :
    (∀ r a, TrackedValue.newArray a ∈ domain_elements (s'.env r) →
      (∃ r0, TrackedValue.newArray a ∈ domain_elements (s.env r0)) ∨
      (insn.opcode = Opcode.newArray ∧
        ∃ len, a = ⟨len, insn.id, 0, [], []⟩) ∨
      (∃ arr, (∃ r0, TrackedValue.newArray arr ∈
          domain_elements (s.env r0)) ∧
        add_element arr arr.aput_insns_size insn.id = some a)) ∧
    (∀ k d, (k, d) ∈ s'.escaped →
      (∃ d0, (k, d0) ∈ s.escaped) ∨
      (insn.opcode = Opcode.newArray ∧ k = insn.id) ∨
      (∃ r0 a, TrackedValue.newArray a ∈ domain_elements (s.env r0) ∧
        k = a.new_array_insn)) ∧
    ((s.escaped.map Prod.fst).Nodup →
      (s'.escaped.map Prod.fst).Nodup) := by
  obtain ⟨iid, op, srcs, dst, wide, hmr, lit, ty⟩ := insn
  cases op with
  | const =>
      cases dst with
      | none => simp only [analyze_instruction] at h; exact Option.noConfusion h
      | some d =>
          simp only [analyze_instruction, Option.some.injEq] at h
          subst h
          refine ⟨?_, fun k d hm => Or.inl ⟨d, hm⟩, fun hnd => hnd⟩
          intro r a ha
          rcases new_array_mem_set_cases ha with h1 | h1
          · exact Or.inl ⟨r, h1⟩
          · simp [domain_elements, make_literal] at h1
  | newArray =>
      cases srcs with
      | nil => simp only [analyze_instruction] at h; exact Option.noConfusion h
      | cons r0 rest =>
          cases rest with
          | cons x xs =>
              simp only [analyze_instruction] at h
              exact Option.noConfusion h
          | nil =>
              simp only [analyze_instruction] at h
              cases hg : get_singleton (s.env r0) with
              | none => rw [hg] at h; cases h
              | some length? =>
                  rw [hg] at h
                  have huntracked :
                      ∀ s₁ : AnalyzerState,
                      s₁.env = s.env →
                      s₁.escaped = esc_assign s.escaped iid
                        EscapedArrayDomain.top →
                      default_case ⟨iid, Opcode.newArray, [r0], dst, wide,
                        hmr, lit, ty⟩ s₁ = some s' →
                      (∀ r a, TrackedValue.newArray a ∈
                          domain_elements (s'.env r) →
                        (∃ rr, TrackedValue.newArray a ∈
                          domain_elements (s.env rr)) ∨
                        (Opcode.newArray = Opcode.newArray ∧
                          ∃ len, a = ⟨len, iid, 0, [], []⟩) ∨
                        (∃ arr, (∃ rr, TrackedValue.newArray arr ∈
                            domain_elements (s.env rr)) ∧
                          add_element arr arr.aput_insns_size iid =
                            some a)) ∧
                      (∀ k d, (k, d) ∈ s'.escaped →
                        (∃ d0, (k, d0) ∈ s.escaped) ∨
                        (Opcode.newArray = Opcode.newArray ∧ k = iid) ∨
                        (∃ rr a, TrackedValue.newArray a ∈
                            domain_elements (s.env rr) ∧
                          k = a.new_array_insn)) ∧
                      ((s.escaped.map Prod.fst).Nodup →
                        (s'.escaped.map Prod.fst).Nodup) := by
                    intro s₁ henv hesc hdc
                    obtain ⟨d1, d2, d3⟩ := default_case_spec hdc
                    refine ⟨?_, ?_, ?_⟩
                    · intro r a ha
                      rcases d1 r with he | he | he <;> rw [he] at ha
                      · rw [henv] at ha
                        exact Or.inl ⟨r, ha⟩
                      · simp [domain_elements, make_other] at ha
                      · simp [domain_elements] at ha
                    · intro k d hm
                      rcases d2 k d hm with ⟨d0, hm0⟩ | ⟨rr, a, ha, hk⟩
                      · rw [hesc] at hm0
                        rcases esc_assign_mem hm0 with hm1 | he
                        · exact Or.inl ⟨d0, hm1⟩
                        · exact Or.inr (Or.inl ⟨rfl, he⟩)
                      · rw [henv] at ha
                        exact Or.inr (Or.inr ⟨rr, a, ha, hk⟩)
                    · intro hnd
                      apply d3
                      rw [hesc]
                      exact esc_assign_keys_nodup hnd
                  cases length? with
                  | none =>
                      exact huntracked ⟨s.env, esc_assign s.escaped iid
                        EscapedArrayDomain.top⟩ rfl rfl h
                  | some v =>
                      dsimp only at h
                      by_cases hl : is_literal v = true
                      · rw [if_pos hl] at h
                        by_cases hneg : get_literal v < 0 ∨
                            2147483647 < get_literal v
                        · rw [if_pos hneg] at h; cases h
                        · rw [if_neg hneg] at h
                          injection h with h
                          subst h
                          refine ⟨?_, fun k d hm => Or.inl ⟨d, hm⟩,
                            fun hnd => hnd⟩
                          intro r a ha
                          simp only [set_reg] at ha
                          by_cases hr : r = RESULT_REGISTER
                          · rw [if_pos hr] at ha
                            simp only [domain_elements, make_array,
                              List.mem_singleton] at ha
                            injection ha with ha
                            exact Or.inr (Or.inl ⟨rfl,
                              ⟨(get_literal v).toNat, ha⟩⟩)
                          · rw [if_neg hr] at ha
                            exact Or.inl ⟨r, ha⟩
                      · rw [if_neg hl] at h
                        exact huntracked ⟨s.env, esc_assign s.escaped iid
                          EscapedArrayDomain.top⟩ rfl rfl h
  | moveResultPseudoObject =>
      cases dst with
      | none => simp only [analyze_instruction] at h; exact Option.noConfusion h
      | some d =>
          simp only [analyze_instruction, Option.some.injEq] at h
          subst h
          refine ⟨?_, fun k d hm => Or.inl ⟨d, hm⟩, fun hnd => hnd⟩
          intro r a ha
          rcases new_array_mem_set_cases ha with h1 | h1
          · exact Or.inl ⟨r, h1⟩
          · exact Or.inl ⟨RESULT_REGISTER, h1⟩
  | aput =>
      match srcs, h with
      | [], h =>
          simp only [analyze_instruction] at h; exact Option.noConfusion h
      | [_], h =>
          simp only [analyze_instruction] at h; exact Option.noConfusion h
      | [_, _], h =>
          simp only [analyze_instruction] at h; exact Option.noConfusion h
      | _ :: _ :: _ :: _ :: _, h =>
          simp only [analyze_instruction] at h; exact Option.noConfusion h
      | [v, a, i], h =>
          simp only [analyze_instruction] at h
          cases he : escape_new_arrays s v with
          | none => rw [he] at h; cases h
          | some s1 =>
              rw [he] at h
              dsimp only at h
              obtain ⟨he1, he2, he3⟩ := escape_new_arrays_spec he
              have hdc : ∀ (s₂ : AnalyzerState),
                  s₂.env = s.env → s₂.escaped = s1.escaped →
                  default_case ⟨iid, Opcode.aput, [v, a, i], dst, wide,
                    hmr, lit, ty⟩ s₂ = some s' →
                  (∀ r a2, TrackedValue.newArray a2 ∈
                      domain_elements (s'.env r) →
                    (∃ rr, TrackedValue.newArray a2 ∈
                      domain_elements (s.env rr)) ∨
                    (Opcode.aput = Opcode.newArray ∧
                      ∃ len, a2 = ⟨len, iid, 0, [], []⟩) ∨
                    (∃ arr, (∃ rr, TrackedValue.newArray arr ∈
                        domain_elements (s.env rr)) ∧
                      add_element arr arr.aput_insns_size iid =
                        some a2)) ∧
                  (∀ k d, (k, d) ∈ s'.escaped →
                    (∃ d0, (k, d0) ∈ s.escaped) ∨
                    (Opcode.aput = Opcode.newArray ∧ k = iid) ∨
                    (∃ rr a2, TrackedValue.newArray a2 ∈
                        domain_elements (s.env rr) ∧
                      k = a2.new_array_insn)) ∧
                  ((s.escaped.map Prod.fst).Nodup →
                    (s'.escaped.map Prod.fst).Nodup) := by
                intro s₂ henv hesc hdcc
                obtain ⟨d1, d2, d3⟩ := default_case_spec hdcc
                refine ⟨?_, ?_, ?_⟩
                · intro r a2 ha2
                  rcases d1 r with hee | hee | hee <;> rw [hee] at ha2
                  · rw [henv] at ha2
                    exact Or.inl ⟨r, ha2⟩
                  · simp [domain_elements, make_other] at ha2
                  · simp [domain_elements] at ha2
                · intro k d hm
                  rcases d2 k d hm with ⟨d0, hm0⟩ | ⟨rr, a2, ha2, hk⟩
                  · rw [hesc] at hm0
                    rcases he2 k d0 hm0 with hm1 | ⟨a2, ha2, hk⟩
                    · exact Or.inl hm1
                    · exact Or.inr (Or.inr ⟨v, a2, ha2, hk⟩)
                  · rw [henv] at ha2
                    exact Or.inr (Or.inr ⟨rr, a2, ha2, hk⟩)
                · intro hnd
                  apply d3
                  rw [hesc]
                  exact he3 hnd
              cases ha : get_singleton (s1.env a) with
              | none => rw [ha] at h; cases h
              | some array? =>
                  rw [ha] at h
                  cases hi : get_singleton (s1.env i) with
                  | none => rw [hi] at h; cases h
                  | some index? =>
                      rw [hi] at h
                      cases array? with
                      | none => exact hdc _ he1 rfl h
                      | some av =>
                          cases av with
                          | other => exact hdc _ he1 rfl h
                          | literal l => exact hdc _ he1 rfl h
                          | newArray arr =>
                              cases index? with
                              | none => exact hdc _ he1 rfl h
                              | some iv =>
                                  cases iv with
                                  | other => exact hdc _ he1 rfl h
                                  | newArray a2 => exact hdc _ he1 rfl h
                                  | literal idx =>
                                      dsimp only at h
                                      by_cases hcc :
                                          is_array_literal arr = false ∧
                                          is_next_index arr idx = true
                                      · rw [if_pos hcc] at h
                                        cases hadd : add_element arr
                                            idx.toNat iid with
                                        | none =>
                                            rw [hadd] at h
                                            exact hdc _ he1 rfl h
                                        | some na =>
                                            rw [hadd] at h
                                            injection h with h
                                            subst h
                                            have harr :
                                                TrackedValue.newArray arr ∈
                                                domain_elements (s.env a) := by
                                              have := get_singleton_some ha
                                              rw [he1] at this
                                              rw [this]
                                              simp [domain_elements]
                                            have hidx : idx.toNat =
                                                arr.aput_insns_size := by
                                              have h2 := of_decide_eq_true hcc.2
                                              rw [h2]
                                              exact Int.toNat_natCast _
                                            refine ⟨?_,
                                              fun k d hm => ?_, he3⟩
                                            · intro r a2 ha2
                                              simp only [set_reg] at ha2
                                              by_cases hr : r = a
                                              · rw [if_pos hr] at ha2
                                                simp only [domain_elements,
                                                  List.mem_singleton] at ha2
                                                injection ha2 with ha2
                                                refine Or.inr (Or.inr
                                                  ⟨arr, ⟨a, harr⟩, ?_⟩)
                                                rw [← hidx, hadd, ha2]
                                              · rw [if_neg hr] at ha2
                                                rw [he1] at ha2
                                                exact Or.inl ⟨r, ha2⟩
                                            · rcases he2 k d hm with
                                                hm1 | ⟨a2, ha2, hk⟩
                                              · exact Or.inl hm1
                                              · exact Or.inr (Or.inr
                                                  ⟨v, a2, ha2, hk⟩)
                                      · rw [if_neg hcc] at h
                                        exact hdc _ he1 rfl h
  | move =>
      cases dst with
      | none => simp only [analyze_instruction] at h; exact Option.noConfusion h
      | some d =>
          match srcs, h with
          | [], h =>
              simp only [analyze_instruction] at h
              exact Option.noConfusion h
          | _ :: _ :: _, h =>
              simp only [analyze_instruction] at h
              exact Option.noConfusion h
          | [r0], h =>
              simp only [analyze_instruction] at h
              cases hg : get_singleton (s.env r0) with
              | none => rw [hg] at h; cases h
              | some v? =>
                  rw [hg] at h
                  have hdc : default_case ⟨iid, Opcode.move, [r0], some d,
                      wide, hmr, lit, ty⟩ s = some s' →
                      _ := fun hdcc => default_case_spec hdcc
                  cases v? with
                  | none =>
                      obtain ⟨d1, d2, d3⟩ := default_case_spec h
                      refine ⟨?_, ?_, d3⟩
                      · intro r a ha
                        rcases d1 r with hee | hee | hee <;> rw [hee] at ha
                        · exact Or.inl ⟨r, ha⟩
                        · simp [domain_elements, make_other] at ha
                        · simp [domain_elements] at ha
                      · intro k d2' hm
                        rcases d2 k d2' hm with ⟨d0, hm0⟩ | ⟨rr, a, ha, hk⟩
                        · exact Or.inl ⟨d0, hm0⟩
                        · exact Or.inr (Or.inr ⟨rr, a, ha, hk⟩)
                  | some v =>
                      dsimp only at h
                      by_cases hl : is_literal v = true
                      · rw [if_pos hl] at h
                        injection h with h
                        subst h
                        refine ⟨?_, fun k d2 hm => Or.inl ⟨d2, hm⟩,
                          fun hnd => hnd⟩
                        intro r a ha
                        rcases new_array_mem_set_cases ha with h1 | h1
                        · exact Or.inl ⟨r, h1⟩
                        · cases v with
                          | literal l =>
                              simp [domain_elements] at h1
                          | other => cases hl
                          | newArray a2 => cases hl
                      · rw [if_neg hl] at h
                        obtain ⟨d1, d2, d3⟩ := default_case_spec h
                        refine ⟨?_, ?_, d3⟩
                        · intro r a ha
                          rcases d1 r with hee | hee | hee <;>
                            rw [hee] at ha
                          · exact Or.inl ⟨r, ha⟩
                          · simp [domain_elements, make_other] at ha
                          · simp [domain_elements] at ha
                        · intro k d2' hm
                          rcases d2 k d2' hm with ⟨d0, hm0⟩ |
                            ⟨rr, a, ha, hk⟩
                          · exact Or.inl ⟨d0, hm0⟩
                          · exact Or.inr (Or.inr ⟨rr, a, ha, hk⟩)
  | moveObject =>
      obtain ⟨d1, d2, d3⟩ := default_case_spec h
      refine ⟨?_, ?_, d3⟩
      · intro r a ha
        rcases d1 r with hee | hee | hee <;> rw [hee] at ha
        · exact Or.inl ⟨r, ha⟩
        · simp [domain_elements, make_other] at ha
        · simp [domain_elements] at ha
      · intro k d hm
        rcases d2 k d hm with ⟨d0, hm0⟩ | ⟨rr, a, ha, hk⟩
        · exact Or.inl ⟨d0, hm0⟩
        · exact Or.inr (Or.inr ⟨rr, a, ha, hk⟩)
  | filledNewArray =>
      obtain ⟨d1, d2, d3⟩ := default_case_spec h
      refine ⟨?_, ?_, d3⟩
      · intro r a ha
        rcases d1 r with hee | hee | hee <;> rw [hee] at ha
        · exact Or.inl ⟨r, ha⟩
        · simp [domain_elements, make_other] at ha
        · simp [domain_elements] at ha
      · intro k d hm
        rcases d2 k d hm with ⟨d0, hm0⟩ | ⟨rr, a, ha, hk⟩
        · exact Or.inl ⟨d0, hm0⟩
        · exact Or.inr (Or.inr ⟨rr, a, ha, hk⟩)
  | moveResultObject =>
      obtain ⟨d1, d2, d3⟩ := default_case_spec h
      refine ⟨?_, ?_, d3⟩
      · intro r a ha
        rcases d1 r with hee | hee | hee <;> rw [hee] at ha
        · exact Or.inl ⟨r, ha⟩
        · simp [domain_elements, make_other] at ha
        · simp [domain_elements] at ha
      · intro k d hm
        rcases d2 k d hm with ⟨d0, hm0⟩ | ⟨rr, a, ha, hk⟩
        · exact Or.inl ⟨d0, hm0⟩
        · exact Or.inr (Or.inr ⟨rr, a, ha, hk⟩)
  | invokeStatic =>
      obtain ⟨d1, d2, d3⟩ := default_case_spec h
      refine ⟨?_, ?_, d3⟩
      · intro r a ha
        rcases d1 r with hee | hee | hee <;> rw [hee] at ha
        · exact Or.inl ⟨r, ha⟩
        · simp [domain_elements, make_other] at ha
        · simp [domain_elements] at ha
      · intro k d hm
        rcases d2 k d hm with ⟨d0, hm0⟩ | ⟨rr, a, ha, hk⟩
        · exact Or.inl ⟨d0, hm0⟩
        · exact Or.inr (Or.inr ⟨rr, a, ha, hk⟩)
  | other =>
      obtain ⟨d1, d2, d3⟩ := default_case_spec h
      refine ⟨?_, ?_, d3⟩
      · intro r a ha
        rcases d1 r with hee | hee | hee <;> rw [hee] at ha
        · exact Or.inl ⟨r, ha⟩
        · simp [domain_elements, make_other] at ha
        · simp [domain_elements] at ha
      · intro k d hm
        rcases d2 k d hm with ⟨d0, hm0⟩ | ⟨rr, a, ha, hk⟩
        · exact Or.inl ⟨d0, hm0⟩
        · exact Or.inr (Or.inr ⟨rr, a, ha, hk⟩)

theorem make_array_contiguous (len iid : Nat) :
    Contiguous ⟨len, iid, 0, [], []⟩ := by
  intro i
  simp [assoc_find]

theorem add_element_origin {arr a : NewArrayData} {idx j : Nat}
    (h : add_element arr idx j = some a) :
    a.new_array_insn = arr.new_array_insn := by
  unfold add_element at h
  by_cases hm : arr.aput_insns_range.contains j
  · rw [if_pos hm] at h; cases h
  · rw [if_neg hm] at h
    injection h with h
    subst h
    rfl

theorem add_element_contiguous {arr a : NewArrayData} {j : Nat}
    (hc : Contiguous arr)
    (h : add_element arr arr.aput_insns_size j = some a) :
    Contiguous a := by
  unfold add_element at h
  by_cases hm : arr.aput_insns_range.contains j
  · rw [if_pos hm] at h; cases h
  · rw [if_neg hm] at h
    injection h with h
    subst h
    intro i
    simp only [assoc_find]
    by_cases hi : arr.aput_insns_size = i
    · subst hi
      simp
    · rw [if_neg hi, hc i]
      omega

theorem analyze_run_contiguous {prog : List IRInstruction}
    {s s' : AnalyzerState} (hs : StateContiguous s)
    (h : analyze_run prog s = some s') : StateContiguous s' := by
  induction prog generalizing s with
  | nil => injection h with h; subst h; exact hs
  | cons insn rest ih =>
      rw [analyze_run, List.foldlM_cons] at h
      cases hi : analyze_instruction insn s with
      | none => rw [hi] at h; cases h
      | some s₁ =>
          rw [hi] at h
          apply ih ?_ h
          intro r a ha
          obtain ⟨p1, -, -⟩ := analyze_instruction_spec hi
          rcases p1 r a ha with ⟨r0, h0⟩ | ⟨-, len, he⟩ |
              ⟨arr, ⟨r0, h0⟩, hadd⟩
          · exact hs r0 a h0
          · subst he
            exact make_array_contiguous _ _
          · exact add_element_contiguous (hs r0 arr h0) hadd

theorem analyze_run_escaped_nodup {prog : List IRInstruction}
    {s s' : AnalyzerState} (hnd : (s.escaped.map Prod.fst).Nodup)
    (h : analyze_run prog s = some s') :
    (s'.escaped.map Prod.fst).Nodup := by
  induction prog generalizing s with
  | nil => injection h with h; subst h; exact hnd
  | cons insn rest ih =>
      rw [analyze_run, List.foldlM_cons] at h
      cases hi : analyze_instruction insn s with
      | none => rw [hi] at h; cases h
      | some s₁ =>
          rw [hi] at h
          obtain ⟨-, -, p3⟩ := analyze_instruction_spec hi
          exact ih (p3 hnd) h

theorem analyze_run_origins {P : List IRInstruction}
    {prog : List IRInstruction} {s s' : AnalyzerState}
    (hsub : ∀ i ∈ prog, i ∈ P) (hs : OriginsBounded P s)
    (h : analyze_run prog s = some s') : OriginsBounded P s' := by
  induction prog generalizing s with
  | nil => injection h with h; subst h; exact hs
  | cons insn rest ih =>
      rw [analyze_run, List.foldlM_cons] at h
      cases hi : analyze_instruction insn s with
      | none => rw [hi] at h; cases h
      | some s₁ =>
          rw [hi] at h
          have hmem : insn ∈ P := hsub insn (List.mem_cons_self _ _)
          have hid : insn.opcode = Opcode.newArray →
              insn.id ∈ (collect_new_array_insns P).map IRInstruction.id :=
            fun hop => List.mem_map.mpr ⟨insn,
              List.mem_filter.mpr ⟨hmem, decide_eq_true hop⟩, rfl⟩
          apply ih (fun i hi2 => hsub i (List.mem_cons_of_mem _ hi2)) ?_ h
          obtain ⟨p1, p2, -⟩ := analyze_instruction_spec hi
          constructor
          · intro k d hm
            rcases p2 k d hm with ⟨d0, hm0⟩ | ⟨hop, hk⟩ | ⟨r0, a, ha, hk⟩
            · exact hs.1 k d0 hm0
            · rw [hk]
              exact hid hop
            · rw [hk]
              exact hs.2 r0 a ha
          · intro r a ha
            rcases p1 r a ha with ⟨r0, h0⟩ | ⟨hop, len, he⟩ |
                ⟨arr, ⟨r0, h0⟩, hadd⟩
            · exact hs.2 r0 a h0
            · subst he
              exact hid hop
            · rw [add_element_origin hadd]
              exact hs.2 r0 arr h0

theorem mapM_assoc_find_spec (m : List (Nat × Nat)) :
    ∀ xs : List Nat, (∀ x ∈ xs, (assoc_find m x).isSome) →
    ∃ l : List Nat, xs.mapM (fun i => assoc_find m i) = some l ∧
      l.length = xs.length ∧
      ∀ k x, xs.get? k = some x → l.get? k = assoc_find m x := by
  intro xs
  induction xs with
  | nil =>
      intro _
      refine ⟨[], rfl, rfl, ?_⟩
      intro k x hk
      simp at hk
  | cons x rest ih =>
      intro hall
      obtain ⟨y, hy⟩ := Option.isSome_iff_exists.mp
        (hall x (List.mem_cons_self _ _))
      obtain ⟨l, hl, hlen, hget⟩ := ih
        (fun z hz => hall z (List.mem_cons_of_mem _ hz))
      refine ⟨y :: l, ?_, by simp [hlen], ?_⟩
      · rw [List.mapM_cons, hy, hl]
        rfl
      · intro k z hk
        cases k with
        | zero =>
            injection hk with hk
            subst hk
            simp [hy]
        | succ k2 =>
            simp only [List.get?_cons_succ] at hk ⊢
            exact hget k2 z hk

/-- C5: the contiguity invariant of pending arrays.  First, every pending
array reachable in any state of a straight-line run from a contiguous state
records exactly the indices `0 .. write-count − 1` (a store is only recorded
at the index equal to the current write-count).  Second, a pending array is
complete exactly when its write-count equals its declared length.  Third, a
contiguous complete array resolves to a store list that covers the indices
`0 .. length − 1` in order. -/
theorem pending_array_contiguity :
    (∀ (prog : List IRInstruction) (s s' : AnalyzerState),
      StateContiguous s → analyze_run prog s = some s' →
      StateContiguous s') ∧
    (∀ a : NewArrayData,
      is_array_literal a = true ↔ a.aput_insns_size = a.length) ∧
    (∀ a : NewArrayData, Contiguous a → is_array_literal a = true →
      ∃ l, get_aput_insns a = some l ∧ l.length = a.length ∧
        ∀ i, i < a.length → l.get? i = assoc_find a.aput_insns i) := by
  refine ⟨fun prog s s' hs h => analyze_run_contiguous hs h, ?_, ?_⟩
  · intro a
    simp [is_array_literal]
  · intro a hc hl
    have hsize : a.aput_insns_size = a.length := by
      simpa [is_array_literal] using hl
    obtain ⟨l, hm, hlen, hget⟩ := mapM_assoc_find_spec a.aput_insns
      (List.range a.length)
      (fun x hx => by
        rw [hc x, hsize]
        exact List.mem_range.mp hx)
    refine ⟨l, hm, by simpa using hlen, ?_⟩
    intro i hi
    exact hget i i (by rw [List.get?_eq_getElem?, List.getElem?_range hi])

/-- C5 witness: the preservation part applied to an empty run from the
analyzer's initial state, the completeness criterion and the resolved-list
coverage applied to a concrete one-element complete pending array. -/
theorem pending_array_contiguity_witness :
    StateContiguous ⟨fun _ => TrackedDomain.top, []⟩ ∧
    (is_array_literal ⟨1, 5, 1, [(0, 9)], [9]⟩ = true ↔
      (⟨1, 5, 1, [(0, 9)], [9]⟩ : NewArrayData).aput_insns_size =
      (⟨1, 5, 1, [(0, 9)], [9]⟩ : NewArrayData).length) ∧
    ∃ l, get_aput_insns ⟨1, 5, 1, [(0, 9)], [9]⟩ = some l ∧
      l.length = (⟨1, 5, 1, [(0, 9)], [9]⟩ : NewArrayData).length ∧
      ∀ i, i < (⟨1, 5, 1, [(0, 9)], [9]⟩ : NewArrayData).length →
        l.get? i = assoc_find
          (⟨1, 5, 1, [(0, 9)], [9]⟩ : NewArrayData).aput_insns i :=
  ⟨pending_array_contiguity.1 [] ⟨fun _ => TrackedDomain.top, []⟩
      ⟨fun _ => TrackedDomain.top, []⟩
      (fun _ a ha => absurd ha (by simp [domain_elements])) rfl,
   pending_array_contiguity.2.1 ⟨1, 5, 1, [(0, 9)], [9]⟩,
   pending_array_contiguity.2.2 ⟨1, 5, 1, [(0, 9)], [9]⟩
      (by
        intro i
        cases i with
        | zero => simp [assoc_find]
        | succ n => simp [assoc_find])
      (by decide)⟩

/-- C8: determinism of the result extraction, and the scan invariant.
First, the extractor's output depends only on the contents of the analysis
result map, not on its (hash-)ordering: permuting the analysis result list
leaves the extracted, program-ordered candidate list unchanged — so a
second run with a different internal map order yields identical rewriting
input and hence identical output and statistics.  Second, every allocation
appearing in the analysis result with concrete contents is a `new-array`
instruction of the program, hence found by the program-order scan. -/
theorem extractor_determinism :
    (∀ (cfg : List IRInstruction) (al₁ al₂ : List (Nat × List Nat)),
      al₁.Perm al₂ → (al₁.map Prod.fst).Nodup →
      extract_array_literals (collect_new_array_insns cfg) al₁ =
        extract_array_literals (collect_new_array_insns cfg) al₂) ∧
    (∀ (P : List IRInstruction) (s' : AnalyzerState),
      analyze_run P init_analyzer = some s' →
      ∀ k l, (k, l) ∈ get_array_literals s'.escaped →
        k ∈ (collect_new_array_insns P).map IRInstruction.id) := by
  constructor
  · intro cfg al₁ al₂ hp hnd
    unfold extract_array_literals
    have hf : (fun i : IRInstruction =>
        (assoc_find al₁ i.id).map (fun l => (i.id, l))) =
        (fun i : IRInstruction =>
          (assoc_find al₂ i.id).map (fun l => (i.id, l))) :=
      funext (fun i => by rw [assoc_find_perm hp hnd i.id])
    rw [hf]
  · intro P s' h k l hm
    have hb : OriginsBounded P init_analyzer := by
      constructor
      · intro k2 d hm2
        cases hm2
      · intro r a ha
        simp [init_analyzer, domain_elements] at ha
    have hb' := analyze_run_origins (fun i hi => hi) hb h
    unfold get_array_literals at hm
    rcases List.mem_filterMap.mp hm with ⟨⟨k0, d0⟩, hmem, he⟩
    cases d0 with
    | bottom => cases he
    | top => cases he
    | constant l0 =>
        injection he with he
        obtain ⟨h1, h2⟩ := Prod.mk.injEq .. |>.mp he
        subst h1
        exact hb'.1 k0 (EscapedArrayDomain.constant l0) hmem

/-- C8 witness: the extraction applied to a two-entry analysis result and
its permutation over a one-allocation program, and the scan invariant
applied to the empty program. -/
theorem extractor_determinism_witness :
    extract_array_literals
      (collect_new_array_insns [⟨1, Opcode.newArray, [0], none, false,
        true, 0, DexType.array DexType.intT⟩]) [(1, [5]), (2, [6])] =
    extract_array_literals
      (collect_new_array_insns [⟨1, Opcode.newArray, [0], none, false,
        true, 0, DexType.array DexType.intT⟩]) [(2, [6]), (1, [5])] ∧
    (∀ k l, (k, l) ∈ get_array_literals
        (AnalyzerState.escaped init_analyzer) →
      k ∈ (collect_new_array_insns ([] : List IRInstruction)).map
        IRInstruction.id) :=
  ⟨extractor_determinism.1
      [⟨1, Opcode.newArray, [0], none, false, true, 0,
        DexType.array DexType.intT⟩]
      [(1, [5]), (2, [6])] [(2, [6]), (1, [5])] (by decide) (by decide),
   extractor_determinism.2 [] init_analyzer rfl⟩

theorem get_aput_insns_succeeds {a : NewArrayData} (hc : Contiguous a)
    (hl : is_array_literal a = true) :
    ∃ l, get_aput_insns a = some l := by
  have hsize : a.aput_insns_size = a.length := by
    simpa [is_array_literal] using hl
  obtain ⟨l, hm, -, -⟩ := mapM_assoc_find_spec a.aput_insns
    (List.range a.length)
    (fun x hx => by
      rw [hc x, hsize]
      exact List.mem_range.mp hx)
  exact ⟨l, hm⟩

theorem escape_one_succeeds (esc : EscapedMap) (v : TrackedValue)
    (hok : ∀ a, v = TrackedValue.newArray a → Contiguous a) :
    ∃ esc', escape_one esc v = some esc' := by
  cases v with
  | other => exact ⟨esc, rfl⟩
  | literal l => exact ⟨esc, rfl⟩
  | newArray a =>
      simp only [escape_one]
      by_cases hc : is_array_literal a = true
      · rw [if_pos hc]
        obtain ⟨l, hl⟩ := get_aput_insns_succeeds (hok a rfl) hc
        rw [hl]
        cases hf : assoc_find esc a.new_array_insn with
        | none => exact ⟨_, rfl⟩
        | some d => exact ⟨_, rfl⟩
      · rw [if_neg hc]
        exact ⟨_, rfl⟩

theorem foldl_escape_one_succeeds (es : List TrackedValue)
    (esc : EscapedMap)
    (hok : ∀ a, TrackedValue.newArray a ∈ es → Contiguous a) :
    ∃ esc', es.foldlM escape_one esc = some esc' := by
  induction es generalizing esc with
  | nil => exact ⟨esc, rfl⟩
  | cons v rest ih =>
      obtain ⟨esc₁, h₁⟩ := escape_one_succeeds esc v
        (fun a ha => hok a (by rw [← ha]; exact List.mem_cons_self _ _))
      obtain ⟨esc₂, h₂⟩ := ih esc₁
        (fun a ha => hok a (List.mem_cons_of_mem _ ha))
      refine ⟨esc₂, ?_⟩
      rw [List.foldlM_cons, h₁]
      exact h₂

/-- C7 (amended): for every allocate-array instruction whose length operand
holds a `Value`-kind domain that does not resolve to a singleton literal,
the allocation is immediately and permanently marked escaped-unknown and the
transfer function falls through to the default case without aborting,
resetting the result pseudo-register to the unknown singleton.  (A length
operand that resolves to a singleton *negative* literal instead fails the
non-negativity assertion; see the counterexample.) -/
theorem untracked_allocation_defaults (iid r : Nat) (wide : Bool)
    (lit : Int) (ty : DexType) (s : AnalyzerState)
    (es : List TrackedValue)
    (henv : s.env r = TrackedDomain.value es)
    (hok : ∀ a, TrackedValue.newArray a ∈ es → Contiguous a)
    (hnl : ∀ v, es = [v] → is_literal v = false) :
    ∃ s', analyze_instruction ⟨iid, Opcode.newArray, [r], none, wide, true,
        lit, ty⟩ s = some s' ∧
      assoc_find s'.escaped iid = some EscapedArrayDomain.top ∧
      s'.env RESULT_REGISTER = TrackedDomain.value [make_other] := by
  have htop : assoc_find (esc_assign s.escaped iid EscapedArrayDomain.top)
      iid = some EscapedArrayDomain.top := by
    rw [assoc_find_assign]
    simp
  have hmain : ∀ (s₁ : AnalyzerState), s₁.env = s.env →
      assoc_find s₁.escaped iid = some EscapedArrayDomain.top →
      ∃ s', default_case ⟨iid, Opcode.newArray, [r], none, wide, true, lit,
          ty⟩ s₁ = some s' ∧
        assoc_find s'.escaped iid = some EscapedArrayDomain.top ∧
        s'.env RESULT_REGISTER = TrackedDomain.value [make_other] := by
    intro s₁ henv₁ hesc₁
    obtain ⟨esc', hesc⟩ := foldl_escape_one_succeeds es s₁.escaped hok
    have hescape : escape_new_arrays s₁ r = some ⟨s₁.env, esc'⟩ := by
      unfold escape_new_arrays
      rw [henv₁, henv]
      dsimp only
      rw [hesc]
      rfl
    have hfold : [r].foldlM (fun st r2 => escape_new_arrays st r2) s₁ =
        some ⟨s₁.env, esc'⟩ := by
      rw [List.foldlM_cons, hescape]
      rfl
    refine ⟨⟨set_reg s₁.env RESULT_REGISTER
        (TrackedDomain.value [make_other]), esc'⟩, ?_, ?_, ?_⟩
    · unfold default_case
      rw [hfold]
      rfl
    · exact foldl_escape_one_sticky hesc hesc₁
    · simp [set_reg]
  cases es with
  | nil =>
      obtain ⟨s', h1, h2, h3⟩ := hmain
        ⟨s.env, esc_assign s.escaped iid EscapedArrayDomain.top⟩ rfl htop
      refine ⟨s', ?_, h2, h3⟩
      simp only [analyze_instruction, henv]
      exact h1
  | cons v tail =>
      cases tail with
      | nil =>
          have hv := hnl v rfl
          obtain ⟨s', h1, h2, h3⟩ := hmain
            ⟨s.env, esc_assign s.escaped iid EscapedArrayDomain.top⟩ rfl
            htop
          refine ⟨s', ?_, h2, h3⟩
          simp only [analyze_instruction, henv]
          dsimp only [get_singleton]
          rw [hv]
          exact h1
      | cons w rest =>
          obtain ⟨s', h1, h2, h3⟩ := hmain
            ⟨s.env, esc_assign s.escaped iid EscapedArrayDomain.top⟩ rfl
            htop
          refine ⟨s', ?_, h2, h3⟩
          simp only [analyze_instruction, henv]
          exact h1

/-- C7 counterexample: an allocate-array instruction whose length operand
resolves to the singleton literal `-1` does not fall through to the default
case — the transfer function hits the non-negativity assertion and aborts
(modelled as `none`), contradicting the claim's "including the case of a
negative literal length ... without aborting". -/
theorem negative_length_assert_counterexample :
    (analyze_instruction ⟨1, Opcode.newArray, [0], none, false, true, 0,
        DexType.array DexType.intT⟩
      ⟨fun _ => TrackedDomain.value [TrackedValue.literal (-1)],
        []⟩).isNone = true := rfl

/-- C7 witness: the amended theorem applied to an allocation whose length
register holds the non-literal singleton `{Other}`. -/
theorem untracked_allocation_defaults_witness :
    ∃ s', analyze_instruction ⟨7, Opcode.newArray, [0], none, false, true,
        0, DexType.array DexType.intT⟩
      ⟨fun _ => TrackedDomain.value [make_other], []⟩ = some s' ∧
      assoc_find s'.escaped 7 = some EscapedArrayDomain.top ∧
      s'.env RESULT_REGISTER = TrackedDomain.value [make_other] :=
  untracked_allocation_defaults 7 0 false 0 (DexType.array DexType.intT)
    ⟨fun _ => TrackedDomain.value [make_other], []⟩ [make_other] rfl
    (fun a ha => absurd ha (by simp [make_other]))
    (fun v hv => by
      injection hv with h1 h2
      subst h1
      rfl)

theorem foldl_escape_one_incomplete {es : List TrackedValue}
    {esc esc' : EscapedMap} {arr : NewArrayData}
    (h : es.foldlM escape_one esc = some esc')
    (hin : TrackedValue.newArray arr ∈ es)
    (hinc : is_array_literal arr = false) :
    assoc_find esc' arr.new_array_insn = some EscapedArrayDomain.top := by
  induction es generalizing esc with
  | nil => cases hin
  | cons v rest ih =>
      rw [List.foldlM_cons] at h
      cases hv : escape_one esc v with
      | none => rw [hv] at h; cases h
      | some esc₁ =>
          rw [hv] at h
          rcases List.mem_cons.mp hin with heq | hmem
          · subst heq
            have htop : assoc_find esc₁ arr.new_array_insn =
                some EscapedArrayDomain.top := by
              simp only [escape_one] at hv
              rw [if_neg (by simp [hinc])] at hv
              injection hv with hv
              subst hv
              rw [assoc_find_assign]
              simp
            exact foldl_escape_one_sticky h htop
          · exact ih h hmem

theorem escape_new_arrays_incomplete {s s' : AnalyzerState} {reg : Nat}
    {es : List TrackedValue} {arr : NewArrayData}
    (h : escape_new_arrays s reg = some s')
    (henv : s.env reg = TrackedDomain.value es)
    (hin : TrackedValue.newArray arr ∈ es)
    (hinc : is_array_literal arr = false) :
    assoc_find s'.escaped arr.new_array_insn =
      some EscapedArrayDomain.top := by
  unfold escape_new_arrays at h
  rw [henv] at h
  dsimp only at h
  cases hf : es.foldlM escape_one s.escaped with
  | none => rw [hf] at h; cases h
  | some esc' =>
      rw [hf] at h
      injection h with h
      subst h
      exact foldl_escape_one_incomplete hf hin hinc

theorem top_not_candidate {esc : EscapedMap} {k : Nat}
    (hnd : (esc.map Prod.fst).Nodup)
    (ht : assoc_find esc k = some EscapedArrayDomain.top) :
    ∀ l, (k, l) ∉ get_array_literals esc := by
  intro l hm
  unfold get_array_literals at hm
  rcases List.mem_filterMap.mp hm with ⟨⟨k0, d0⟩, hmem, he⟩
  cases d0 with
  | bottom => cases he
  | top => cases he
  | constant l0 =>
      injection he with he
      obtain ⟨h1, h2⟩ := Prod.mk.injEq .. |>.mp he
      subst h1
      have hfind := mem_assoc_find hmem hnd
      rw [ht] at hfind
      injection hfind with hfind
      exact EscapedArrayDomain.noConfusion hfind

/-- C10: on an element-store instruction, the transfer function escapes any
tracked array held in the value operand even when the store is recorded for
the array operand; an incomplete pending array stored as an element is
marked escaped-unknown, stays unknown for the remainder of the run, and
therefore never appears among the rewrite candidates. -/
theorem aput_value_operand_escapes (iid v a i : Nat) (wide hmr : Bool)
    (lit : Int) (ty : DexType) (s s' : AnalyzerState)
    (es : List TrackedValue) (arr : NewArrayData)
    (henv : s.env v = TrackedDomain.value es)
    (hin : TrackedValue.newArray arr ∈ es)
    (hinc : is_array_literal arr = false)
    (hnd : (s.escaped.map Prod.fst).Nodup)
    (h : analyze_instruction ⟨iid, Opcode.aput, [v, a, i], none, wide, hmr,
        lit, ty⟩ s = some s')
    (prog : List IRInstruction) (s'' : AnalyzerState)
    (hrun : analyze_run prog s' = some s'') :
    assoc_find s''.escaped arr.new_array_insn =
      some EscapedArrayDomain.top ∧
    ∀ l, (arr.new_array_insn, l) ∉ get_array_literals s''.escaped := by
  have hstep : assoc_find s'.escaped arr.new_array_insn =
      some EscapedArrayDomain.top := by
    simp only [analyze_instruction] at h
    cases he : escape_new_arrays s v with
    | none => rw [he] at h; cases h
    | some s1 =>
        rw [he] at h
        dsimp only at h
        have ht1 := escape_new_arrays_incomplete he henv hin hinc
        cases ha2 : get_singleton (s1.env a) with
        | none => rw [ha2] at h; cases h
        | some array? =>
            rw [ha2] at h
            cases hi2 : get_singleton (s1.env i) with
            | none => rw [hi2] at h; cases h
            | some index? =>
                rw [hi2] at h
                cases array? with
                | none => exact default_case_sticky h ht1
                | some av =>
                    cases av with
                    | other => exact default_case_sticky h ht1
                    | literal l => exact default_case_sticky h ht1
                    | newArray arr2 =>
                        cases index? with
                        | none => exact default_case_sticky h ht1
                        | some iv =>
                            cases iv with
                            | other => exact default_case_sticky h ht1
                            | newArray a3 =>
                                exact default_case_sticky h ht1
                            | literal idx =>
                                dsimp only at h
                                by_cases hcc :
                                    is_array_literal arr2 = false ∧
                                    is_next_index arr2 idx = true
                                · rw [if_pos hcc] at h
                                  cases hadd : add_element arr2 idx.toNat
                                      iid with
                                  | none =>
                                      rw [hadd] at h
                                      exact default_case_sticky h ht1
                                  | some na =>
                                      rw [hadd] at h
                                      injection h with h
                                      subst h
                                      exact ht1
                                · rw [if_neg hcc] at h
                                  exact default_case_sticky h ht1
  have hfin := analyze_run_sticky hrun hstep
  have hnd'' : (s''.escaped.map Prod.fst).Nodup := by
    obtain ⟨-, -, p3⟩ := analyze_instruction_spec h
    exact analyze_run_escaped_nodup (p3 hnd) hrun
  exact ⟨hfin, top_not_candidate hnd'' hfin⟩

/-- C10 witness: the theorem applied to a concrete element-store whose value
operand holds an incomplete pending array originating at allocation `9`. -/
theorem aput_value_operand_escapes_witness :
    assoc_find ([(9, EscapedArrayDomain.top)] : EscapedMap) 9 =
      some EscapedArrayDomain.top ∧
    ∀ l, (9, l) ∉ get_array_literals
      ([(9, EscapedArrayDomain.top)] : EscapedMap) :=
  aput_value_operand_escapes 3 0 1 2 false false 0
    (DexType.array DexType.intT)
    ⟨fun r => if r = 0 then
        TrackedDomain.value [TrackedValue.newArray ⟨2, 9, 0, [], []⟩]
      else TrackedDomain.value [make_other], []⟩
    ⟨fun r => if r = 0 then
        TrackedDomain.value [TrackedValue.newArray ⟨2, 9, 0, [], []⟩]
      else TrackedDomain.value [make_other], [(9, EscapedArrayDomain.top)]⟩
    [TrackedValue.newArray ⟨2, 9, 0, [], []⟩] ⟨2, 9, 0, [], []⟩ rfl
    (List.mem_singleton.mpr rfl) (by decide) List.nodup_nil rfl []
    ⟨fun r => if r = 0 then
        TrackedDomain.value [TrackedValue.newArray ⟨2, 9, 0, [], []⟩]
      else TrackedDomain.value [make_other], [(9, EscapedArrayDomain.top)]⟩
    rfl

theorem mem_insert_after_of_mem {cfg : List IRInstruction} {j : Nat}
    {new_insns : List IRInstruction} {x : IRInstruction} (h : x ∈ cfg) :
    x ∈ insert_after cfg j new_insns := by
  induction cfg with
  | nil => cases h
  | cons hd rest ih =>
      rw [insert_after]
      by_cases hj : hd.id = j
      · rw [if_pos hj]
        rcases List.mem_cons.mp h with heq | hmem
        · exact List.mem_cons.mpr (Or.inl heq)
        · exact List.mem_cons.mpr (Or.inr (List.mem_append_right _ hmem))
      · rw [if_neg hj]
        rcases List.mem_cons.mp h with heq | hmem
        · exact List.mem_cons.mpr (Or.inl heq)
        · exact List.mem_cons.mpr (Or.inr (ih hmem))

theorem mem_insert_after {cfg : List IRInstruction} {j : Nat}
    {new_insns : List IRInstruction} {x : IRInstruction}
    (h : x ∈ insert_after cfg j new_insns) : x ∈ cfg ∨ x ∈ new_insns := by
  induction cfg with
  | nil => cases h
  | cons hd rest ih =>
      rw [insert_after] at h
      by_cases hj : hd.id = j
      · rw [if_pos hj] at h
        rcases List.mem_cons.mp h with heq | hmem
        · exact Or.inl (List.mem_cons.mpr (Or.inl heq))
        · rcases List.mem_append.mp hmem with hn | hr
          · exact Or.inr hn
          · exact Or.inl (List.mem_cons.mpr (Or.inr hr))
      · rw [if_neg hj] at h
        rcases List.mem_cons.mp h with heq | hmem
        · exact Or.inl (List.mem_cons.mpr (Or.inl heq))
        · rcases ih hmem with hc | hn
          · exact Or.inl (List.mem_cons.mpr (Or.inr hc))
          · exact Or.inr hn

theorem mem_insert_before_of_mem {cfg : List IRInstruction} {j : Nat}
    {new_insn : IRInstruction} {x : IRInstruction} (h : x ∈ cfg) :
    x ∈ insert_before cfg j new_insn := by
  induction cfg with
  | nil => cases h
  | cons hd rest ih =>
      rw [insert_before]
      by_cases hj : hd.id = j
      · rw [if_pos hj]
        exact List.mem_cons.mpr (Or.inr h)
      · rw [if_neg hj]
        rcases List.mem_cons.mp h with heq | hmem
        · exact List.mem_cons.mpr (Or.inl heq)
        · exact List.mem_cons.mpr (Or.inr (ih hmem))

theorem mem_insert_before {cfg : List IRInstruction} {j : Nat}
    {new_insn : IRInstruction} {x : IRInstruction}
    (h : x ∈ insert_before cfg j new_insn) :
    x ∈ cfg ∨ x = new_insn := by
  induction cfg with
  | nil => cases h
  | cons hd rest ih =>
      rw [insert_before] at h
      by_cases hj : hd.id = j
      · rw [if_pos hj] at h
        rcases List.mem_cons.mp h with heq | hmem
        · exact Or.inr heq
        · exact Or.inl hmem
      · rw [if_neg hj] at h
        rcases List.mem_cons.mp h with heq | hmem
        · exact Or.inl (List.mem_cons.mpr (Or.inl heq))
        · rcases ih hmem with hc | hn
          · exact Or.inl (List.mem_cons.mpr (Or.inr hc))
          · exact Or.inr hn

theorem mem_remove_insn {cfg : List IRInstruction} {j : Nat}
    {x : IRInstruction} (h : x ∈ remove_insn cfg j) : x ∈ cfg := by
  induction cfg with
  | nil => cases h
  | cons hd rest ih =>
      rw [remove_insn] at h
      by_cases hj : hd.id = j
      · rw [if_pos hj] at h
        exact List.mem_cons.mpr (Or.inr h)
      · rw [if_neg hj] at h
        rcases List.mem_cons.mp h with heq | hmem
        · exact List.mem_cons.mpr (Or.inl heq)
        · exact List.mem_cons.mpr (Or.inr (ih hmem))

theorem mem_remove_insn_of_mem {cfg : List IRInstruction} {j : Nat}
    {x : IRInstruction} (h : x ∈ cfg) (hne : x.id ≠ j) :
    x ∈ remove_insn cfg j := by
  induction cfg with
  | nil => cases h
  | cons hd rest ih =>
      rw [remove_insn]
      by_cases hj : hd.id = j
      · rw [if_pos hj]
        rcases List.mem_cons.mp h with heq | hmem
        · subst heq
          exact absurd hj hne
        · exact hmem
      · rw [if_neg hj]
        rcases List.mem_cons.mp h with heq | hmem
        · exact List.mem_cons.mpr (Or.inl heq)
        · exact List.mem_cons.mpr (Or.inr (ih hmem))

theorem cfg_contains_iff {cfg : List IRInstruction} {j : Nat} :
    cfg_contains cfg j = true ↔ ∃ x ∈ cfg, x.id = j := by
  simp [cfg_contains, List.any_eq_true]

theorem replace_aputs_go_spec (move_op : Opcode)
    (aput_insns : List IRInstruction) (filled_srcs : List Nat)
    (overall_dest chunk_start : Nat) :
    ∀ (k index : Nat) (s s' : RAL),
    replace_aputs_go move_op aput_insns filled_srcs overall_dest
      chunk_start k index s = some s' →
    s.next_id ≤ s'.next_id ∧
    s'.next_temp = s.next_temp ∧
    s'.local_temp_regs = s.local_temp_regs ∧
    s'.max_filled_elements = s.max_filled_elements ∧
    (∀ x ∈ s'.cfg, x ∈ s.cfg ∨
      (s.next_id ≤ x.id ∧ x.id < s'.next_id ∧ x.opcode = move_op)) ∧
    (∀ x ∈ s.cfg, x.id ∉ aput_insns.map IRInstruction.id → x ∈ s'.cfg) ∧
    s'.stats = s.stats := by
  intro k
  induction k with
  | zero =>
      intro index s s' h
      injection h with h
      subst h
      exact ⟨Nat.le_refl _, rfl, rfl, rfl, fun x hx => Or.inl hx,
        fun x hx _ => hx, rfl⟩
  | succ k2 ih =>
      intro index s s' h
      rw [replace_aputs_go] at h
      cases hget : aput_insns.get? index with
      | none => rw [hget] at h; cases h
      | some aput_insn =>
          rw [hget] at h
          dsimp only at h
          by_cases hcond : aput_insn.opcode = Opcode.aput ∧
              aput_insn.srcs.get? 1 = some overall_dest ∧
              cfg_contains s.cfg aput_insn.id = true
          · rw [if_pos hcond] at h
            cases hv : aput_insn.srcs.get? 0 with
            | none => rw [hv] at h; cases h
            | some value_reg =>
                rw [hv] at h
                cases ht : filled_srcs.get? (index - chunk_start) with
                | none => rw [ht] at h; cases h
                | some temp_reg =>
                    rw [ht] at h
                    dsimp only at h
                    obtain ⟨i1, i2, i3, i4, i5, i6, i7⟩ :=
                      ih (index + 1) _ _ h
                    simp only [fresh_id] at i1 i2 i3 i4 i5 i6 i7
                    have haput_mem : aput_insn.id ∈
                        aput_insns.map IRInstruction.id :=
                      List.mem_map.mpr ⟨aput_insn, List.get?_mem hget, rfl⟩
                    refine ⟨by omega, i2, i3, i4, ?_, ?_, i7⟩
                    · intro x hx
                      rcases i5 x hx with hm | ⟨hb1, hb2, hb3⟩
                      · rcases mem_insert_before (mem_remove_insn hm) with
                          hm3 | heq
                        · exact Or.inl hm3
                        · subst heq
                          exact Or.inr ⟨Nat.le_refl _,
                            by dsimp only; omega, rfl⟩
                      · exact Or.inr ⟨by omega, hb2, hb3⟩
                    · intro x hx hnot
                      apply i6
                      · apply mem_remove_insn_of_mem
                        · exact mem_insert_before_of_mem hx
                        · intro he
                          exact hnot (he ▸ haput_mem)
                      · exact hnot
          · rw [if_neg hcond] at h
            cases h

theorem ensure_temps_go_spec :
    ∀ (k : Nat) (temps : List Nat) (s : RAL),
    ∃ fresh : List Nat,
      ensure_temps_go k temps s = (temps ++ fresh,
        { s with next_temp := s.next_temp + k }) ∧
      fresh.length = k ∧
      (∀ t ∈ fresh, s.next_temp ≤ t ∧ t < s.next_temp + k) := by
  intro k
  induction k with
  | zero =>
      intro temps s
      exact ⟨[], by simp [ensure_temps_go], rfl, by simp⟩
  | succ k2 ih =>
      intro temps s
      obtain ⟨fresh, h1, h2, h3⟩ := ih (temps ++ [s.next_temp])
        { s with next_temp := s.next_temp + 1 }
      refine ⟨s.next_temp :: fresh, ?_, by simp [h2], ?_⟩
      · rw [ensure_temps_go, h1]
        refine congrArg₂ Prod.mk ?_ ?_
        · simp
        · have harith : s.next_temp + 1 + k2 = s.next_temp + (k2 + 1) := by
            omega
          rw [harith]
      · intro t ht
        rcases List.mem_cons.mp ht with heq | hmem
        · subst heq
          exact ⟨Nat.le_refl _, by omega⟩
        · obtain ⟨hb1, hb2⟩ := h3 t hmem
          simp only at hb1 hb2
          exact ⟨by omega, by omega⟩

theorem ensure_temps_spec (need : Nat) (temps : List Nat) (s : RAL) :
    ∃ fresh : List Nat,
      ensure_temps need temps s = (temps ++ fresh,
        { s with next_temp := s.next_temp + (need - temps.length) }) ∧
      (temps ++ fresh).length = max temps.length need ∧
      (∀ t ∈ fresh, s.next_temp ≤ t ∧
        t < s.next_temp + (need - temps.length)) := by
  obtain ⟨fresh, h1, h2, h3⟩ := ensure_temps_go_spec
    (need - temps.length) temps s
  refine ⟨fresh, h1, ?_, h3⟩
  simp only [List.length_append, h2]
  omega

theorem move_op_ne_filled (type : DexType) :
    (if (get_array_component_type type).any is_primitive = true then
      Opcode.move else Opcode.moveObject) ≠ Opcode.filledNewArray := by
  split <;> simp

theorem patch_new_array_chunk_spec {type : DexType} {chunk_start : Nat}
    {aput_insns : List IRInstruction} {chunk_dest : Option Nat}
    {overall_dest : Nat} {temp_regs : List Nat} {s : RAL}
    {chunk_size : Nat} {temp_regs' : List Nat} {s' : RAL}
    (h : patch_new_array_chunk type chunk_start aput_insns chunk_dest
      overall_dest temp_regs s = some (chunk_size, temp_regs', s')) :
    s.next_id ≤ s'.next_id ∧
    s.next_temp ≤ s'.next_temp ∧
    s'.local_temp_regs = s.local_temp_regs ∧
    s'.max_filled_elements = s.max_filled_elements ∧
    (∃ fresh, temp_regs' = temp_regs ++ fresh ∧
      ∀ t ∈ fresh, s.next_temp ≤ t ∧ t < s'.next_temp) ∧
    (∀ x ∈ s'.cfg, x ∈ s.cfg ∨ (s.next_id ≤ x.id ∧ x.id < s'.next_id)) ∧
    (∀ x ∈ s'.cfg, x.opcode = Opcode.filledNewArray →
      x ∈ s.cfg ∨ x.srcs = temp_regs'.take chunk_size) ∧
    (∀ x ∈ s.cfg, x.id ∉ aput_insns.map IRInstruction.id → x ∈ s'.cfg) ∧
    chunk_size = min (aput_insns.length - chunk_start)
      s.max_filled_elements := by
  simp only [patch_new_array_chunk] at h
  cases hget : aput_insns.get? (chunk_start +
      min (aput_insns.length - chunk_start) s.max_filled_elements - 1) with
  | none => rw [hget] at h; cases h
  | some last_aput_insn =>
      rw [hget] at h
      dsimp only at h
      by_cases hcont : cfg_contains s.cfg last_aput_insn.id = true
      · rw [if_pos hcont] at h
        obtain ⟨fresh, hens, hlen, hbnd⟩ := ensure_temps_spec
          (min (aput_insns.length - chunk_start) s.max_filled_elements)
          temp_regs s
        rw [hens] at h
        simp only [fresh_id] at h
        cases chunk_dest with
        | none =>
            rw [Option.map_eq_some'] at h
            obtain ⟨s2, hrep, heqt⟩ := h
            injection heqt with h1 h23
            injection h23 with h2 h3
            subst h1
            subst h2
            subst h3
            unfold replace_aputs at hrep
            obtain ⟨r1, r2, r3, r4, r5, r6, r7⟩ :=
              replace_aputs_go_spec _ _ _ _ _ _ _ _ _ hrep
            dsimp only at r1 r2 r3 r4
            refine ⟨by omega, by rw [r2]; omega, r3, r4,
              ⟨fresh, rfl, ?_⟩, ?_, ?_, ?_, rfl⟩
            · intro t ht
              obtain ⟨hb1, hb2⟩ := hbnd t ht
              rw [r2]
              exact ⟨hb1, hb2⟩
            · intro x hx
              rcases r5 x hx with hm | ⟨hb1, hb2, hb3⟩
              · rcases mem_insert_after hm with hm2 | hm2
                · exact Or.inl hm2
                · rcases List.mem_cons.mp hm2 with heq | hm3
                  · subst heq
                    exact Or.inr ⟨Nat.le_refl _, by dsimp only; omega⟩
                  · rcases List.mem_cons.mp hm3 with heq | hm4
                    · subst heq
                      exact Or.inr ⟨by dsimp only; omega,
                        by dsimp only; omega⟩
                    · cases hm4
              · dsimp only at hb1
                exact Or.inr ⟨by omega, by omega⟩
            · intro x hx hop
              rcases r5 x hx with hm | ⟨hb1, hb2, hb3⟩
              · rcases mem_insert_after hm with hm2 | hm2
                · exact Or.inl hm2
                · rcases List.mem_cons.mp hm2 with heq | hm3
                  · subst heq
                    exact Or.inr rfl
                  · rcases List.mem_cons.mp hm3 with heq | hm4
                    · subst heq
                      cases hop
                    · cases hm4
              · exact absurd hop (hb3 ▸ move_op_ne_filled type)
            · intro x hx hnot
              exact r6 x (mem_insert_after_of_mem hx) hnot
        | some cd =>
            cases hloc : s.local_temp_regs with
            | nil => rw [hloc] at h; cases h
            | cons l0 t0 =>
                cases t0 with
                | nil => rw [hloc] at h; cases h
                | cons l1 t1 =>
                    cases t1 with
                    | nil => rw [hloc] at h; cases h
                    | cons l2 t2 =>
                        rw [hloc] at h
                        dsimp only [fresh_id] at h
                        rw [Option.map_eq_some'] at h
                        obtain ⟨s2, hrep, heqt⟩ := h
                        injection heqt with h1 h23
                        injection h23 with h2 h3
                        subst h1
                        subst h2
                        subst h3
                        unfold replace_aputs at hrep
                        obtain ⟨r1, r2, r3, r4, r5, r6, r7⟩ :=
                          replace_aputs_go_spec _ _ _ _ _ _ _ _ _ hrep
                        dsimp only at r1 r2 r3 r4
                        refine ⟨by omega, by rw [r2]; omega,
                          by rw [r3], r4, ⟨fresh, rfl, ?_⟩, ?_, ?_, ?_,
                          rfl⟩
                        · intro t ht
                          obtain ⟨hb1, hb2⟩ := hbnd t ht
                          rw [r2]
                          exact ⟨hb1, hb2⟩
                        · intro x hx
                          rcases r5 x hx with hm | ⟨hb1, hb2, hb3⟩
                          · rcases mem_insert_after hm with hm2 | hm2
                            · exact Or.inl hm2
                            · simp only [List.mem_cons] at hm2
                              rcases hm2 with heq | heq | heq | heq |
                                heq | heq | hfalse
                              · subst heq
                                exact Or.inr ⟨Nat.le_refl _,
                                  by dsimp only; omega⟩
                              · subst heq
                                exact Or.inr ⟨by dsimp only; omega,
                                  by dsimp only; omega⟩
                              · subst heq
                                exact Or.inr ⟨by dsimp only; omega,
                                  by dsimp only; omega⟩
                              · subst heq
                                exact Or.inr ⟨by dsimp only; omega,
                                  by dsimp only; omega⟩
                              · subst heq
                                exact Or.inr ⟨by dsimp only; omega,
                                  by dsimp only; omega⟩
                              · subst heq
                                exact Or.inr ⟨by dsimp only; omega,
                                  by dsimp only; omega⟩
                              · exact absurd hfalse (List.not_mem_nil x)
                          · dsimp only at hb1
                            exact Or.inr ⟨by omega, by omega⟩
                        · intro x hx hop
                          rcases r5 x hx with hm | ⟨hb1, hb2, hb3⟩
                          · rcases mem_insert_after hm with hm2 | hm2
                            · exact Or.inl hm2
                            · simp only [List.mem_cons] at hm2
                              rcases hm2 with heq | heq | heq | heq |
                                heq | heq | hfalse
                              · subst heq
                                exact Or.inr rfl
                              · subst heq; cases hop
                              · subst heq; cases hop
                              · subst heq; cases hop
                              · subst heq; cases hop
                              · subst heq; cases hop
                              · exact absurd hfalse (List.not_mem_nil x)
                          · exact absurd hop
                              (hb3 ▸ move_op_ne_filled type)
                        · intro x hx hnot
                          exact r6 x (mem_insert_after_of_mem hx) hnot
      · rw [if_neg hcont] at h
        cases h

theorem patch_chunks_go_spec (type : DexType)
    (aput_insns : List IRInstruction) (chunk_dest : Option Nat)
    (overall_dest : Nat) :
    ∀ (fuel chunk_start : Nat) (temp_regs : List Nat) (s s' : RAL),
    patch_chunks_go type aput_insns chunk_dest overall_dest fuel
      chunk_start temp_regs s = some s' →
    s.next_id ≤ s'.next_id ∧
    s.next_temp ≤ s'.next_temp ∧
    s'.local_temp_regs = s.local_temp_regs ∧
    (∀ x ∈ s'.cfg, x ∈ s.cfg ∨ (s.next_id ≤ x.id ∧ x.id < s'.next_id)) ∧
    (∀ lo, lo ≤ s.next_temp →
      (∀ t ∈ temp_regs, lo ≤ t ∧ t < s.next_temp) →
      ∀ x ∈ s'.cfg, x.opcode = Opcode.filledNewArray → x ∈ s.cfg ∨
        (∀ t ∈ x.srcs, lo ≤ t ∧ t < s'.next_temp)) ∧
    (∀ x ∈ s.cfg, x.id ∉ aput_insns.map IRInstruction.id →
      x ∈ s'.cfg) := by
  intro fuel
  induction fuel with
  | zero =>
      intro chunk_start temp_regs s s' h
      rw [patch_chunks_go] at h
      by_cases hlt : chunk_start < aput_insns.length
      · rw [if_pos hlt] at h; cases h
      · rw [if_neg hlt] at h
        injection h with h
        subst h
        exact ⟨Nat.le_refl _, Nat.le_refl _, rfl, fun x hx => Or.inl hx,
          fun lo hlo hb x hx hop => Or.inl hx, fun x hx _ => hx⟩
  | succ f ih =>
      intro chunk_start temp_regs s s' h
      rw [patch_chunks_go] at h
      by_cases hlt : chunk_start < aput_insns.length
      · rw [if_pos hlt] at h
        cases hc : patch_new_array_chunk type chunk_start aput_insns
            chunk_dest overall_dest temp_regs s with
        | none => rw [hc] at h; cases h
        | some res =>
            obtain ⟨csz, tr2, s2⟩ := res
            rw [hc] at h
            dsimp only at h
            by_cases hz : csz = 0
            · rw [if_pos hz] at h; cases h
            · rw [if_neg hz] at h
              obtain ⟨c1, c2, c3, c4, c5, c6, c7, c8, c9⟩ :=
                patch_new_array_chunk_spec hc
              obtain ⟨i1, i2, i3, i4, i5, i6⟩ := ih _ _ _ _ h
              refine ⟨by omega, by omega, by rw [i3, c3], ?_, ?_, ?_⟩
              · intro x hx
                rcases i4 x hx with hm | ⟨hb1, hb2⟩
                · rcases c6 x hm with hm2 | ⟨hc1b, hc2b⟩
                  · exact Or.inl hm2
                  · exact Or.inr ⟨hc1b, by omega⟩
                · exact Or.inr ⟨by omega, hb2⟩
              · intro lo hlo hb x hx hop
                obtain ⟨fr, hfr, hfrb⟩ := c5
                have hbt : ∀ t ∈ tr2, lo ≤ t ∧ t < s2.next_temp := by
                  intro t ht
                  rw [hfr] at ht
                  rcases List.mem_append.mp ht with hm | hm
                  · obtain ⟨u1, u2⟩ := hb t hm
                    exact ⟨u1, by omega⟩
                  · obtain ⟨u1, u2⟩ := hfrb t hm
                    exact ⟨by omega, u2⟩
                rcases i5 lo (by omega) hbt x hx hop with hm | hbb
                · rcases c7 x hm hop with hm2 | hsrcs
                  · exact Or.inl hm2
                  · refine Or.inr ?_
                    intro t ht
                    rw [hsrcs] at ht
                    obtain ⟨u1, u2⟩ := hbt t (List.take_subset _ _ ht)
                    exact ⟨u1, by omega⟩
                · exact Or.inr hbb
              · intro x hx hnot
                exact i6 x (c8 x hx hnot) hnot
      · rw [if_neg hlt] at h
        injection h with h
        subst h
        exact ⟨Nat.le_refl _, Nat.le_refl _, rfl, fun x hx => Or.inl hx,
          fun lo hlo hb x hx hop => Or.inl hx, fun x hx _ => hx⟩

theorem ensure_local_temps_go_fields :
    ∀ (k : Nat) (s : RAL),
    (ensure_local_temps_go k s).cfg = s.cfg ∧
    (ensure_local_temps_go k s).next_id = s.next_id ∧
    s.next_temp ≤ (ensure_local_temps_go k s).next_temp ∧
    (ensure_local_temps_go k s).max_filled_elements =
      s.max_filled_elements ∧
    (ensure_local_temps_go k s).stats = s.stats := by
  intro k
  induction k with
  | zero => intro s; exact ⟨rfl, rfl, Nat.le_refl _, rfl, rfl⟩
  | succ k2 ih =>
      intro s
      obtain ⟨i1, i2, i3, i4, i5⟩ := ih
        { s with
            local_temp_regs := s.local_temp_regs ++ [s.next_temp]
            next_temp := s.next_temp + 1 }
      rw [ensure_local_temps_go]
      exact ⟨i1, i2, by simp only at i3; omega, i4, i5⟩

theorem ensure_local_temps_of_full {s : RAL}
    (h : s.local_temp_regs.length = 3) : ensure_local_temps s = s := by
  unfold ensure_local_temps
  rw [h]
  rfl

theorem mem_remove_insn_with_pseudo {cfg : List IRInstruction} {k : Nat}
    {x : IRInstruction} (h : x ∈ remove_insn_with_pseudo cfg k) :
    x ∈ cfg := by
  induction cfg with
  | nil => cases h
  | cons hd rest ih =>
      rw [remove_insn_with_pseudo.eq_def] at h
      dsimp only at h
      by_cases hk : hd.id = k
      · rw [if_pos hk] at h
        cases rest with
        | nil => cases h
        | cons j rest' =>
            dsimp only at h
            by_cases hj : j.opcode = Opcode.moveResultPseudoObject
            · rw [if_pos hj] at h
              exact List.mem_cons_of_mem _ (List.mem_cons_of_mem _ h)
            · rw [if_neg hj] at h
              exact List.mem_cons_of_mem _ h
      · rw [if_neg hk] at h
        rcases List.mem_cons.mp h with heq | hm
        · exact List.mem_cons.mpr (Or.inl heq)
        · exact List.mem_cons.mpr (Or.inr (ih hm))

theorem ensure_local_temps_fields (s : RAL) :
    (ensure_local_temps s).cfg = s.cfg ∧
    (ensure_local_temps s).next_id = s.next_id ∧
    s.next_temp ≤ (ensure_local_temps s).next_temp ∧
    (ensure_local_temps s).max_filled_elements = s.max_filled_elements ∧
    (ensure_local_temps s).stats = s.stats :=
  ensure_local_temps_go_fields _ s

theorem patch_new_array_spec {new_array_insn : IRInstruction}
    {aput_insns : List IRInstruction} {s s' : RAL}
    (h : patch_new_array new_array_insn aput_insns s = some s') :
    s.next_id ≤ s'.next_id ∧
    s.next_temp ≤ s'.next_temp ∧
    (∀ x ∈ s'.cfg, x.opcode = Opcode.filledNewArray → x ∈ s.cfg ∨
      (∀ t ∈ x.srcs, s.next_temp ≤ t ∧ t < s'.next_temp)) ∧
    (s.local_temp_regs.length = 3 →
      s'.local_temp_regs = s.local_temp_regs) := by
  unfold patch_new_array at h
  by_cases hch : s.max_filled_elements < aput_insns.length
  · rw [if_pos hch] at h
    simp only [allocate_temp] at h
    generalize hS : ensure_local_temps
      { s with next_temp := s.next_temp + 1 } = S at h
    have hf := ensure_local_temps_fields
      { s with next_temp := s.next_temp + 1 }
    rw [hS] at hf
    obtain ⟨hf1, hf2, hf3, hf4, hf5⟩ := hf
    simp only at hf1 hf2 hf3 hf4 hf5
    by_cases hcc : cfg_contains S.cfg new_array_insn.id = true ∧
        new_array_insn.opcode = Opcode.newArray
    · rw [if_pos hcc] at h
      cases hnext : next_insn S.cfg new_array_insn.id with
      | none => rw [hnext] at h; cases h
      | some mr =>
          rw [hnext] at h
          dsimp only at h
          by_cases hmr : mr.opcode = Opcode.moveResultPseudoObject
          · rw [if_pos hmr] at h
            cases hdst : mr.dest with
            | none => rw [hdst] at h; cases h
            | some overall_dest =>
                rw [hdst] at h
                simp only [Option.isNone_some, Bool.false_eq_true, if_false] at h
                unfold patch_chunks at h
                obtain ⟨l1, l2, l3, l4, l5, l6⟩ :=
                  patch_chunks_go_spec _ _ _ _ _ _ _ _ _ h
                refine ⟨by omega, by omega, ?_, ?_⟩
                · intro x hx hop
                  rcases l5 s.next_temp (by omega) (by simp) x hx hop with
                    hm | hb
                  · rw [hf1] at hm
                    exact Or.inl hm
                  · exact Or.inr hb
                · intro hlen
                  have : ensure_local_temps
                      { s with next_temp := s.next_temp + 1 } =
                      { s with next_temp := s.next_temp + 1 } :=
                    ensure_local_temps_of_full hlen
                  rw [this] at hS
                  rw [l3, ← hS]
          · rw [if_neg hmr] at h
            cases h
    · rw [if_neg hcc] at h
      cases h
  · rw [if_neg hch] at h
    dsimp only at h
    by_cases hcc : cfg_contains s.cfg new_array_insn.id = true ∧
        new_array_insn.opcode = Opcode.newArray
    · rw [if_pos hcc] at h
      cases hnext : next_insn s.cfg new_array_insn.id with
      | none => rw [hnext] at h; cases h
      | some mr =>
          rw [hnext] at h
          dsimp only at h
          by_cases hmr : mr.opcode = Opcode.moveResultPseudoObject
          · rw [if_pos hmr] at h
            cases hdst : mr.dest with
            | none => rw [hdst] at h; cases h
            | some overall_dest =>
                rw [hdst] at h
                simp only [Option.isNone_none, if_true] at h
                unfold patch_chunks at h
                obtain ⟨l1, l2, l3, l4, l5, l6⟩ :=
                  patch_chunks_go_spec _ _ _ _ _ _ _ _ _ h
                simp only at l1 l2 l3
                refine ⟨by omega, by omega, ?_, fun _ => l3⟩
                intro x hx hop
                rcases l5 s.next_temp (by dsimp only; omega) (by simp) x hx
                    hop with hm | hb
                · exact Or.inl (mem_remove_insn_with_pseudo hm)
                · exact Or.inr hb
          · rw [if_neg hmr] at h
            cases h
    · rw [if_neg hcc] at h
      cases h
theorem patch_candidate_spec {p : IRInstruction × List IRInstruction}
    {s s' : RAL} (h : patch_candidate s p = some s') :
    s.next_id ≤ s'.next_id ∧
    s.next_temp ≤ s'.next_temp ∧
    (∀ x ∈ s'.cfg, x.opcode = Opcode.filledNewArray → x ∈ s.cfg ∨
      (∀ t ∈ x.srcs, s.next_temp ≤ t ∧ t < s'.next_temp)) ∧
    (s.local_temp_regs.length = 3 →
      s'.local_temp_regs = s.local_temp_regs) := by
  unfold patch_candidate at h
  dsimp only at h
  by_cases hn : p.2.length = 0
  · rw [if_pos hn] at h
    injection h with h
    subst h
    exact ⟨Nat.le_refl _, Nat.le_refl _, fun x hx _ => Or.inl hx,
      fun _ => rfl⟩
  · rw [if_neg hn] at h
    cases hct : get_array_component_type p.1.type with
    | none => rw [hct] at h; cases h
    | some et =>
        rw [hct] at h
        dsimp only at h
        cases hgd : gate_decision s.min_sdk s.arch et p.2.length with
        | accept =>
            rw [hgd] at h
            dsimp only at h
            obtain ⟨a1, a2, a3, a4⟩ := patch_new_array_spec h
            exact ⟨a1, a2, a3, a4⟩
        | skip_empty =>
            rw [hgd] at h
            injection h with h
            subst h
            exact ⟨Nat.le_refl _, Nat.le_refl _, fun x hx _ => Or.inl hx,
              fun _ => rfl⟩
        | reject_buggy_sdk =>
            rw [hgd] at h
            injection h with h
            subst h
            exact ⟨Nat.le_refl _, Nat.le_refl _, fun x hx _ => Or.inl hx,
              fun _ => rfl⟩
        | reject_wide =>
            rw [hgd] at h
            injection h with h
            subst h
            exact ⟨Nat.le_refl _, Nat.le_refl _, fun x hx _ => Or.inl hx,
              fun _ => rfl⟩
        | reject_buggy_range =>
            rw [hgd] at h
            injection h with h
            subst h
            exact ⟨Nat.le_refl _, Nat.le_refl _, fun x hx _ => Or.inl hx,
              fun _ => rfl⟩
        | reject_buggy_multidim =>
            rw [hgd] at h
            injection h with h
            subst h
            exact ⟨Nat.le_refl _, Nat.le_refl _, fun x hx _ => Or.inl hx,
              fun _ => rfl⟩
        | reject_buggy_x86 =>
            rw [hgd] at h
            injection h with h
            subst h
            exact ⟨Nat.le_refl _, Nat.le_refl _, fun x hx _ => Or.inl hx,
              fun _ => rfl⟩
        | reject_unimplemented =>
            rw [hgd] at h
            injection h with h
            subst h
            exact ⟨Nat.le_refl _, Nat.le_refl _, fun x hx _ => Or.inl hx,
              fun _ => rfl⟩
/-- C2: counterexample.  On a method with two 30-element allocations
(maximum chunk size 27, so each is split into chunks of 27 and 3), the
rewrite reuses the per-slot temporary registers across chunks of the same
allocation — both chunks of the first allocation draw their
filled-construction operands from the same registers 14, 15, 16 — and the
three scratch temporaries 11, 12, 13 appear in the array-copy calls of
*both* allocations, so they are shared across allocations, contradicting
both halves of the claim. -/
theorem temp_reg_sharing_counterexample :
    ((patch (demo_candidates_two (DexType.array DexType.intT))
        (demo_ral_two (DexType.array DexType.intT))).map (fun s =>
      ((s.cfg.filter (fun i => i.opcode = Opcode.filledNewArray)).map
          (fun i => i.srcs.take 3),
        (s.cfg.filter (fun i => i.opcode = Opcode.invokeStatic)).map
          (fun i => i.srcs),
        s.local_temp_regs)) =
      some ([[14, 15, 16], [14, 15, 16], [42, 43, 44], [42, 43, 44]],
        [[10, 11, 1, 12, 13], [10, 11, 1, 12, 13],
          [41, 11, 5, 12, 13], [41, 11, 5, 12, 13]],
        [11, 12, 13])) := by
  decide

/-- C2 (amended): the actual temporary-register discipline of a chunked
rewrite step.  The per-allocation pool of per-slot temporaries only ever
grows — new entries are drawn fresh from the register counter — and a
chunk's filled-construction operands are the first `chunk_size` entries of
the grown pool, so registers of earlier chunks *are* reused by later
chunks of the same allocation; and the three shared scratch registers are
left untouched by chunk surgery, so the same scratch registers serve every
allocation of the method. -/
theorem temp_reg_discipline {type : DexType} {chunk_start : Nat}
    {aput_insns : List IRInstruction} {cd overall_dest : Nat}
    {temp_regs : List Nat} {s : RAL} {chunk_size : Nat}
    {temp_regs' : List Nat} {s' : RAL}
    (h : patch_new_array_chunk type chunk_start aput_insns (some cd)
      overall_dest temp_regs s = some (chunk_size, temp_regs', s')) :
    (∃ fresh, temp_regs' = temp_regs ++ fresh ∧
      ∀ t ∈ fresh, s.next_temp ≤ t ∧ t < s'.next_temp) ∧
    (∀ x ∈ s'.cfg, x.opcode = Opcode.filledNewArray →
      x ∈ s.cfg ∨ x.srcs = temp_regs'.take chunk_size) ∧
    s'.local_temp_regs = s.local_temp_regs := by
  obtain ⟨_, _, l3, _, l5, _, l7, _, _⟩ := patch_new_array_chunk_spec h
  exact ⟨l5, l7, l3⟩

theorem temp_reg_discipline_witness :
    ∃ (cs : Nat) (tr : List Nat) (s' : RAL),
      patch_new_array_chunk (DexType.array DexType.intT) 0
        (demo_aputs 2 0 0) (some 9) 1 []
        { cfg := demo_prog 2 0 0 (DexType.array DexType.intT)
          max_filled_elements := 27
          min_sdk := 25
          arch := Architecture.unknown
          local_temp_regs := [11, 12, 13]
          next_temp := 14
          next_id := 1000
          stats := {} } = some (cs, tr, s') ∧
      ((∃ fresh, tr = [] ++ fresh ∧
          ∀ t ∈ fresh, 14 ≤ t ∧ t < s'.next_temp) ∧
        (∀ x ∈ s'.cfg, x.opcode = Opcode.filledNewArray →
          x ∈ demo_prog 2 0 0 (DexType.array DexType.intT) ∨
            x.srcs = tr.take cs) ∧
        s'.local_temp_regs = [11, 12, 13]) := by
  cases hr : patch_new_array_chunk (DexType.array DexType.intT) 0
      (demo_aputs 2 0 0) (some 9) 1 []
      { cfg := demo_prog 2 0 0 (DexType.array DexType.intT)
        max_filled_elements := 27
        min_sdk := 25
        arch := Architecture.unknown
        local_temp_regs := [11, 12, 13]
        next_temp := 14
        next_id := 1000
        stats := {} } with
  | none => exact absurd hr (by decide)
  | some r =>
      obtain ⟨cs, tr, s'⟩ := r
      exact ⟨cs, tr, s', rfl, temp_reg_discipline hr⟩
theorem next_insn_mem {cfg : List IRInstruction} {k : Nat}
    {mr : IRInstruction} (h : next_insn cfg k = some mr) : mr ∈ cfg := by
  induction cfg with
  | nil => cases h
  | cons hd rest ih =>
      rw [next_insn.eq_def] at h
      dsimp only at h
      by_cases hk : hd.id = k
      · rw [if_pos hk] at h
        cases rest with
        | nil => cases h
        | cons j rest' =>
            injection h with h
            subst h
            exact List.mem_cons_of_mem _ (List.mem_cons_self _ _)
      · rw [if_neg hk] at h
        exact List.mem_cons_of_mem _ (ih h)

theorem remove_insn_with_pseudo_spec {cfg : List IRInstruction} {k : Nat}
    {mr : IRInstruction}
    (hnd : (cfg.map IRInstruction.id).Nodup)
    (hnext : next_insn cfg k = some mr)
    (hmr : mr.opcode = Opcode.moveResultPseudoObject) :
    ∀ x ∈ remove_insn_with_pseudo cfg k, x.id ≠ k ∧ x.id ≠ mr.id := by
  induction cfg with
  | nil => intro x hx; exact absurd hx (List.not_mem_nil x)
  | cons hd rest ih =>
      intro x hx
      rw [remove_insn_with_pseudo.eq_def] at hx
      dsimp only at hx
      rw [next_insn.eq_def] at hnext
      dsimp only at hnext
      simp only [List.map_cons, List.nodup_cons] at hnd
      obtain ⟨hhd, hnd'⟩ := hnd
      by_cases hk : hd.id = k
      · rw [if_pos hk] at hx hnext
        cases rest with
        | nil => cases hnext
        | cons j rest' =>
            injection hnext with hj
            subst hj
            dsimp only at hx
            rw [if_pos hmr] at hx
            simp only [List.map_cons, List.nodup_cons] at hnd'
            obtain ⟨hmrn, hnd''⟩ := hnd'
            constructor
            · intro hxk
              apply hhd
              rw [hk, ← hxk]
              exact List.mem_cons_of_mem _ (List.mem_map_of_mem _ hx)
            · intro hxm
              apply hmrn
              rw [← hxm]
              exact List.mem_map_of_mem _ hx
      · rw [if_neg hk] at hx hnext
        rcases List.mem_cons.mp hx with heq | hm
        · subst heq
          refine ⟨hk, ?_⟩
          intro heq2
          apply hhd
          rw [heq2]
          exact List.mem_map_of_mem _ (next_insn_mem hnext)
        · exact ih hnd' hnext x hm
/-- C3: counterexample.  On the 60-element demo program (maximum chunk
size 27, so chunking is used), the rewrite keeps the `new-array`
instruction (id 1) and its paired `move-result-pseudo` (id 2) in the
method body: when chunking, the allocation is needed as the overall array
and is not removed, contradicting the claim that every surviving
candidate's allocation is removed. -/
theorem allocation_retained_when_chunking_counterexample :
    ((patch [(demo_new_array 0 0 (DexType.array DexType.intT),
        demo_aputs 60 0 0)]
        (demo_ral 60 (DexType.array DexType.intT) 25)).map
      (fun s => (cfg_contains s.cfg 1, cfg_contains s.cfg 2))) =
      some (true, true) := by
  decide

/-- C3 (amended): the allocation and its paired result capture are removed
exactly when the rewrite does *not* chunk.  For a successful rewrite of a
candidate whose instruction identities are well-formed, if the element
count fits into one chunk then neither the `new-array` nor its
`move-result-pseudo` survives, while if chunking is needed both remain in
the method body. -/
theorem allocation_removal_iff_no_chunking {na : IRInstruction}
    {aput_insns : List IRInstruction} {s s' : RAL} {mr : IRInstruction}
    (h : patch_new_array na aput_insns s = some s')
    (hnd : (s.cfg.map IRInstruction.id).Nodup)
    (hnext : next_insn s.cfg na.id = some mr)
    (hmr : mr.opcode = Opcode.moveResultPseudoObject)
    (hna : na.id < s.next_id) (hmrid : mr.id < s.next_id)
    (hnaap : na.id ∉ aput_insns.map IRInstruction.id)
    (hmrap : mr.id ∉ aput_insns.map IRInstruction.id) :
    (aput_insns.length ≤ s.max_filled_elements →
      na.id ∉ s'.cfg.map IRInstruction.id ∧
      mr.id ∉ s'.cfg.map IRInstruction.id) ∧
    (s.max_filled_elements < aput_insns.length →
      na.id ∈ s'.cfg.map IRInstruction.id ∧
      mr.id ∈ s'.cfg.map IRInstruction.id) := by
  unfold patch_new_array at h
  by_cases hch : s.max_filled_elements < aput_insns.length
  · rw [if_pos hch] at h
    simp only [allocate_temp] at h
    generalize hS : ensure_local_temps
      { s with next_temp := s.next_temp + 1 } = S at h
    have hf := ensure_local_temps_fields
      { s with next_temp := s.next_temp + 1 }
    rw [hS] at hf
    obtain ⟨hf1, hf2, hf3, hf4, hf5⟩ := hf
    simp only at hf1 hf2 hf3 hf4 hf5
    rw [hf1] at h
    by_cases hcc : cfg_contains s.cfg na.id = true ∧
        na.opcode = Opcode.newArray
    · rw [if_pos hcc] at h
      rw [hnext] at h
      dsimp only at h
      rw [if_pos hmr] at h
      cases hdst : mr.dest with
      | none => rw [hdst] at h; cases h
      | some overall_dest =>
          rw [hdst] at h
          simp only [Option.isNone_some, Bool.false_eq_true, if_false] at h
          unfold patch_chunks at h
          obtain ⟨l1, l2, l3, l4, l5, l6⟩ :=
            patch_chunks_go_spec _ _ _ _ _ _ _ _ _ h
          refine ⟨fun hle => absurd hch (by omega), fun _ => ?_⟩
          obtain ⟨x, hx, hxid⟩ := cfg_contains_iff.mp hcc.1
          have hxS : x ∈ S.cfg := by rw [hf1]; exact hx
          have hxm : x ∈ s'.cfg := l6 x hxS (by rw [hxid]; exact hnaap)
          have hmrS : mr ∈ S.cfg := by rw [hf1]; exact next_insn_mem hnext
          have hmrm : mr ∈ s'.cfg := l6 mr hmrS hmrap
          exact ⟨List.mem_map.mpr ⟨x, hxm, hxid⟩,
            List.mem_map.mpr ⟨mr, hmrm, rfl⟩⟩
    · rw [if_neg hcc] at h
      cases h
  · rw [if_neg hch] at h
    dsimp only at h
    by_cases hcc : cfg_contains s.cfg na.id = true ∧
        na.opcode = Opcode.newArray
    · rw [if_pos hcc] at h
      rw [hnext] at h
      dsimp only at h
      rw [if_pos hmr] at h
      cases hdst : mr.dest with
      | none => rw [hdst] at h; cases h
      | some overall_dest =>
          rw [hdst] at h
          simp only [Option.isNone_none, if_true] at h
          unfold patch_chunks at h
          obtain ⟨l1, l2, l3, l4, l5, l6⟩ :=
            patch_chunks_go_spec _ _ _ _ _ _ _ _ _ h
          refine ⟨fun _ => ?_, fun hgt => absurd hgt hch⟩
          have hrm := remove_insn_with_pseudo_spec hnd hnext hmr
          constructor
          · intro hmem
            obtain ⟨x, hx, hxid⟩ := List.mem_map.mp hmem
            rcases l4 x hx with hxin | ⟨hge, _⟩
            · exact absurd hxid (hrm x hxin).1
            · have hge' : s.next_id ≤ x.id := hge
              omega
          · intro hmem
            obtain ⟨x, hx, hxid⟩ := List.mem_map.mp hmem
            rcases l4 x hx with hxin | ⟨hge, _⟩
            · exact absurd hxid (hrm x hxin).2
            · have hge' : s.next_id ≤ x.id := hge
              omega
    · rw [if_neg hcc] at h
      cases h

theorem allocation_removal_iff_no_chunking_witness :
    ∃ s' : RAL,
      patch_new_array (demo_new_array 0 0 (DexType.array DexType.intT))
        (demo_aputs 3 0 0)
        (demo_ral 3 (DexType.array DexType.intT) 25) = some s' ∧
      (1 : Nat) ∉ s'.cfg.map IRInstruction.id ∧
      (2 : Nat) ∉ s'.cfg.map IRInstruction.id := by
  cases hp : patch_new_array (demo_new_array 0 0
      (DexType.array DexType.intT)) (demo_aputs 3 0 0)
      (demo_ral 3 (DexType.array DexType.intT) 25) with
  | none => exact absurd hp (by decide)
  | some s' =>
      refine ⟨s', rfl, ?_⟩
      have hc := allocation_removal_iff_no_chunking hp (by decide)
        (show next_insn (demo_ral 3 (DexType.array DexType.intT) 25).cfg
            (demo_new_array 0 0 (DexType.array DexType.intT)).id =
          some ⟨2, Opcode.moveResultPseudoObject, [], some 1, false,
            false, 0, DexType.intT⟩ by decide)
        (by decide) (by decide) (by decide) (by decide) (by decide)
      exact hc.1 (by decide)
/-- C4: counterexample.  On the 60-element demo candidate with maximum
chunk size 27, the rewrite inserts an array-copy call for *every* chunk —
three calls, not two: `patch_new_array_chunk` emits the copy whenever a
chunk destination is in use, including for the first chunk, contradicting
the claim's "all but conceptually the first chunk". -/
theorem chunk_arraycopy_count_counterexample :
    ((patch [(demo_new_array 0 0 (DexType.array DexType.intT),
        demo_aputs 60 0 0)]
        (demo_ral 60 (DexType.array DexType.intT) 25)).map
      (fun s => (s.cfg.filter
        (fun i => i.opcode = Opcode.invokeStatic)).length) =
      some 3) ∧ (3 : Nat) ≠ 2 :=
  ⟨by decide, by decide⟩

/-- C4 (amended): chunking arithmetic and semantics on the 60-element
candidate with maximum chunk size 27.  The rewrite produces exactly three
chunks of sizes 27, 27 and 6 in that order (three filled-construction
instructions with that many operands, and a chunk counter of 3), inserts
an array-copy call for every one of the three chunks, and running the
rewritten method leaves the overall result register holding a reference
to an array containing all 60 values in original index order. -/
theorem chunking_structure_and_semantics :
    ((patch [(demo_new_array 0 0 (DexType.array DexType.intT),
        demo_aputs 60 0 0)]
        (demo_ral 60 (DexType.array DexType.intT) 25)).map
      (fun s =>
        ((s.cfg.filter (fun i => i.opcode = Opcode.filledNewArray)).map
          (fun i => i.srcs.length),
         s.stats.filled_array_chunks,
         (s.cfg.filter
           (fun i => i.opcode = Opcode.invokeStatic)).length)) =
      some ([27, 27, 6], 3, 3)) ∧
    ((patch [(demo_new_array 0 0 (DexType.array DexType.intT),
        demo_aputs 60 0 0)]
        (demo_ral 60 (DexType.array DexType.intT) 25)).map
      (fun s => (run_machine s.cfg init_machine).regs 1) =
      some (MVal.ref 0)) ∧
    ((patch [(demo_new_array 0 0 (DexType.array DexType.intT),
        demo_aputs 60 0 0)]
        (demo_ral 60 (DexType.array DexType.intT) 25)).map
      (fun s => (run_machine s.cfg init_machine).heap.get? 0) =
      some (some ((List.range 60).map (fun i => (100 : Int) + i)))) :=
  ⟨by decide, by decide, by decide⟩
/-- C9: the range-payload check (rule 3, `min_sdk < 24 && n > 5`) is
unreachable: every platform version below 24 is already rejected by the
first check (rule 1), so no candidate is ever rejected by rule 3 and its
counter can never be incremented. -/
theorem gate_third_check_unreachable (min_sdk : Int)
    (arch : Architecture) (element_type : DexType) (n : Nat) :
    gate_decision min_sdk arch element_type n ≠
      GateDecision.reject_buggy_range := by
  unfold gate_decision
  by_cases h0 : n = 0
  · simp [h0]
  · by_cases h1 : min_sdk < 24
    · simp [h0, h1]
    · have h3 : ¬(min_sdk < 24 ∧ 5 < n) := fun hc => h1 hc.1
      simp only [if_neg h0, if_neg h1]
      by_cases h2 : is_wide_type element_type
      · simp [h2]
      · simp only [if_neg h2, if_neg h3]
        split
        · simp
        · split
          · simp
          · split
            · simp
            · simp
/-- C1: counterexample.  At minimum platform version 21, a candidate with
wide-primitive (64-bit) elements is rejected by the *first* check — every
version below 24 falls to rule 1 — not by rule 2's wide-primitive check:
the gate answers `reject_buggy_sdk`, a different outcome than
`reject_wide`, and on a concrete 3-element long-array candidate the
buggy-version counter, not the wide-array counter, is incremented. -/
theorem gate_wide_at_21_counterexample :
    gate_decision 21 Architecture.unknown DexType.longT 3 =
      GateDecision.reject_buggy_sdk ∧
    GateDecision.reject_buggy_sdk ≠ GateDecision.reject_wide ∧
    ((patch [(demo_new_array 0 0 (DexType.array DexType.longT),
        demo_aputs 3 0 0)]
        (demo_ral 3 (DexType.array DexType.longT) 21)).map
      (fun s => (s.stats.remaining_wide_arrays,
        s.stats.remaining_buggy_arrays)) = some (0, 1)) :=
  ⟨by decide, by decide, by decide⟩

/-- C1 (amended): gate behaviour on the spec's two test inputs.  At
minimum platform version 21 every nonempty wide-primitive candidate is
rejected — but by rule 1, the version check, since 21 < 24 short-circuits
before the wide-primitive check ever runs; and at minimum version 25 a
30-element object-array candidate is accepted and rewritten with chunking
(one rewritten array, two chunks of 27 and 3). -/
theorem gate_spec_scenarios :
    (∀ (n : Nat) (arch : Architecture) (ty : DexType), 0 < n →
      is_wide_type ty = true →
      gate_decision 21 arch ty n = GateDecision.reject_buggy_sdk) ∧
    gate_decision 25 Architecture.unknown (DexType.object 7) 30 =
      GateDecision.accept ∧
    ((patch [(demo_new_array 0 0 (DexType.array (DexType.object 7)),
        demo_aputs 30 0 0)]
        (demo_ral 30 (DexType.array (DexType.object 7)) 25)).map
      (fun s => (s.stats.filled_arrays, s.stats.filled_array_chunks)) =
      some (1, 2)) := by
  refine ⟨?_, by decide, by decide⟩
  intro n arch ty hn _
  unfold gate_decision
  rw [if_neg (by omega), if_pos (by norm_num)]

theorem gate_spec_scenarios_witness :
    0 < 4 ∧ is_wide_type DexType.longT = true ∧
    gate_decision 21 Architecture.unknown DexType.longT 4 =
      GateDecision.reject_buggy_sdk :=
  ⟨by decide, by decide,
    gate_spec_scenarios.1 4 Architecture.unknown DexType.longT (by decide)
      (by decide)⟩
